import Mathlib

/-!
# godependants: dependant maps, the module filter and the transitive closure

A shallow embedding of `main.go` of `nesv/godependants`.

* A Go `string` is embedded as a Lean `String`, a sequence of characters
  where Go has the bytes of their UTF-8 encoding.  The two separators the
  program looks for (`/` and `.`) are ASCII, so searching by character and
  searching by byte select the same substrings, and one string is a prefix
  of another by characters exactly when it is one by bytes.
* A Go `map[string][]string` is embedded as an association list with
  pairwise distinct keys (`AList`), so a key has exactly one value.
* A Go `map[string]struct{}` used as a set is embedded as a duplicate-free
  list in insertion order.  Go iterates a map in an unspecified order, so
  only the membership of the lists built from such a set is meaningful.
* Recursion that Go does not bound (`dependantsOf`, and `visit` of
  `packages.Visit`) takes a fuel argument and returns `none` when the fuel
  is used up; `none` stands for a call that does not return.
* `filepath.Join` and `filepath.Clean` are embedded by the rules of their
  documentation, for a system whose separator is `/`.
* Of `main`, the part after the dependant map is built and filtered is
  embedded: its result is the list of lines written to the standard output;
  the lines of the log are left out.
-/

namespace GoDependants

/-! ## Strings -/

/-- Go `strings.Index(s, sep)` for a one-character separator: the position
of the first occurrence of `sep` in `s`, or `-1` when there is none. -/
def stringsIndex (s : String) (sep : Char) : Int :=
  if sep ∈ s.data then (s.data.indexOf sep : Int) else -1

/-- Go `strings.Contains(s, sub)` for a one-character `sub`. -/
def stringsContains (s : String) (sub : Char) : Bool :=
  decide (sub ∈ s.data)

/-- Go slice expression `s[:i]`. -/
def sliceTo (s : String) (i : Nat) : String :=
  String.mk (s.data.take i)

/-- Go slice expression `s[i:]`. -/
def sliceFrom (s : String) (i : Nat) : String :=
  String.mk (s.data.drop i)

/-- Go `strings.HasPrefix(s, pre)`. -/
def stringsHasPrefix (s pre : String) : Bool :=
  pre.data.isPrefixOf s.data

/-! ## The classifier -/

/-- The function `packageIsExternal` of `main.go`. -/
def packageIsExternal (name : String) : Bool :=
  let i := stringsIndex name '/'
  if i = -1 then
    false
  else
    stringsContains (sliceTo name i.toNat) '.'

/-! ## Dependant maps -/

/-- A Go `map[string][]string`. -/
abbrev DepMap := AList (fun _ : String => List String)

/-- Insertion into a Go `map[string]struct{}` used as a set. -/
def setAdd (dm : List String) (name : String) : List String :=
  if name ∈ dm then dm else dm ++ [name]

/-- The inner loop of `trimExtModDeps`: the flag `hasLocalModDep` after the
loop over `dependants`. -/
def hasLocalModDep (localModName : String) (dependants : List String) : Bool :=
  dependants.foldl
    (fun flag dep => if stringsHasPrefix dep localModName then true else flag) false

/-- The list `rm` built by the first loop of `trimExtModDeps`. -/
def trimList (localModName : String) (m : DepMap) : List String :=
  m.entries.foldl
    (fun rm e => if !hasLocalModDep localModName e.2 then rm ++ [e.1] else rm) []

/-- The function `trimExtModDeps` of `main.go`; the map mutated in place is
returned. -/
def trimExtModDeps (localModName : String) (m : DepMap) : DepMap :=
  (trimList localModName m).foldl (fun m pkg => m.erase pkg) m

/-- The function `dependantsOf` of `main.go`.  The recursion of the source
is unbounded, so the embedding counts the nesting depth down from `fuel`
and yields `none` when it reaches zero.  The result lists the keys of the
set `dm` in insertion order. -/
def dependantsOf : Nat → String → DepMap → Option (List String)
  | 0, _, _ => none
  | fuel + 1, pkgname, m =>
    match m.lookup pkgname with
    | none => some []
    | some deps =>
      deps.foldlM
        (fun dm name =>
          match dependantsOf fuel name m with
          | none => none
          | some ts => some (ts.foldl setAdd (setAdd dm name)))
        []

/-! ## The package graph and its traversal -/

/-- Modelled from the spec: the type `packages.Package` of
`golang.org/x/tools/go/packages` is not under `src/`.  The program reads two
fields of a package record: its identifier `ID`, and `Imports`, a Go map from
the import paths of the package to the records of the imported packages.  A
pointer to a record is embedded as the position of the record in a heap. -/
structure Package where
  /-- The identifier of the package. -/
  ID : String
  /-- The import paths of the package, each with a pointer to the record of
  the imported package. -/
  Imports : AList (fun _ : String => Nat)

/-- The heap of package records handed over by the loader; a `*Package` is a
position in this list. -/
abbrev Graph := List Package

/-- Go `a <= b` on strings: the lexicographic order of the characters (the
order of the code points is the order of their UTF-8 bytes). -/
def stringsLe : List Char → List Char → Bool
  | [], _ => true
  | _ :: _, [] => false
  | a :: as, b :: bs =>
    if a.toNat < b.toNat then true
    else if b.toNat < a.toNat then false
    else stringsLe as bs

/-- The import paths of a package in increasing order, as `packages.Visit`
arranges them (`sort.Strings`) before it descends. -/
def sortedPaths (pkg : Package) : List String :=
  pkg.Imports.keys.insertionSort (fun a b => stringsLe a.data b.data = true)

/-- Modelled from the spec: `packages.Visit` of
`golang.org/x/tools/go/packages` is not under `src/`.  The inner function
`visit` of `packages.Visit` with a `pre` callback and no `post` callback:
a package met for the first time is marked as seen and handed to `pre`,
and its imports are visited, in the order of their import paths, exactly
when `pre` answers true.  The state `st` is what the callback mutates.  The
nesting depth is counted down from `fuel`.  A pointer outside the heap is
marked as seen and contributes nothing. -/
def visit {σ : Type} (g : Graph) (pre : Package → σ → Bool × σ) :
    Nat → Nat → List Nat × σ → Option (List Nat × σ)
  | 0, _, _ => none
  | fuel + 1, ptr, (seen, st) =>
    if ptr ∈ seen then
      some (seen, st)
    else
      match g[ptr]? with
      | none => some (ptr :: seen, st)
      | some pkg =>
        let r := pre pkg st
        if r.1 then
          (sortedPaths pkg).foldlM
            (fun s path =>
              match pkg.Imports.lookup path with
              | none => some s
              | some q => visit g pre fuel q s)
            (ptr :: seen, r.2)
        else
          some (ptr :: seen, r.2)

/-- Modelled from the spec: `packages.Visit(pkgs, pre, nil)` of
`golang.org/x/tools/go/packages` is not under `src/`.  The roots are
visited in order with one shared set of seen packages.  A nesting depth of
one more than the number of package records is enough for every heap (see
`Visit_spec`). -/
def Visit {σ : Type} (g : Graph) (pkgs : List Nat) (pre : Package → σ → Bool × σ)
    (st : σ) : Option (List Nat × σ) :=
  pkgs.foldlM (fun s ptr => visit g pre (g.length + 1) ptr s) ([], st)

/-- The loop `for name := range p.Imports` in the callback of
`collectDependants`. -/
def addDependant (ID : String) (deps : DepMap) (name : String) : DepMap :=
  if !packageIsExternal name then
    deps
  else
    let pp := match deps.lookup name with
      | some pp => pp
      | none => []
    deps.insert name (pp ++ [ID])

/-- The callback that `collectDependants` hands to `packages.Visit`. -/
def collectPre (p : Package) (deps : DepMap) : Bool × DepMap :=
  if !packageIsExternal p.ID then
    (false, deps)
  else
    (true, p.Imports.keys.foldl (addDependant p.ID) deps)

/-- The function `collectDependants` of `main.go`, on the heap `g` with the
root packages `pkgs`. -/
def collectDependants (g : Graph) (pkgs : List Nat) : Option DepMap :=
  (Visit g pkgs collectPre ∅).map Prod.snd

/-- The package graph of `scenarioGraph`, written out record by record. -/
def fixGraph : Graph :=
  [⟨"example.com/app/a", [⟨"github.com/x/lib", 2⟩, ⟨"fmt", 4⟩].toAList⟩,
   ⟨"example.com/app/b", [⟨"github.com/x/lib", 2⟩].toAList⟩,
   ⟨"github.com/x/lib", [⟨"github.com/y/core", 3⟩].toAList⟩,
   ⟨"github.com/y/core", ∅⟩,
   ⟨"fmt", ∅⟩]


/-! ## The package-path normaliser and the queries of `main` -/

/-- The elements of a path: the pieces between the separators `/`. -/
def splitSep : List Char → List (List Char)
  | [] => [[]]
  | c :: cs =>
    if c = '/' then [] :: splitSep cs
    else
      match splitSep cs with
      | [] => [[c]]
      | e :: es => (c :: e) :: es

/-- The path elements joined by the separator `/`. -/
def joinSep : List (List Char) → List Char
  | [] => []
  | [e] => e
  | e :: e1 :: es => e ++ '/' :: joinSep (e1 :: es)

/-- One path element as Go `filepath.Clean` treats it, with the elements
kept so far in `out`: an empty element and `.` are dropped; `..` removes
the element before it, is dropped at the root, and is kept where there is
nothing to remove; any other element is kept. -/
def cleanStep (rooted : Bool) (out : List (List Char)) (e : List Char) :
    List (List Char) :=
  if e = [] ∨ e = ['.'] then out
  else if e = ['.', '.'] then
    match out.getLast? with
    | some top => if top = ['.', '.'] then out ++ [e] else out.dropLast
    | none => if rooted then out else out ++ [e]
  else out ++ [e]

/-- A path element that `filepath.Clean` keeps as it is: not empty, not `.`
and not `..`. -/
def realElem (e : List Char) : Bool :=
  decide (e ≠ [] ∧ e ≠ ['.'] ∧ e ≠ ['.', '.'])

/-- Go `filepath.Clean(path)` on a system whose separator is `/`, by the
rules of its documentation: multiple separators become one, `.` elements
are eliminated, inner `..` elements are eliminated with the element before
them, `..` elements that begin a rooted path are eliminated, and the empty
result is `.`. -/
def filepathClean (path : String) : String :=
  if path.data = [] then "."
  else
    let rooted := decide (path.data.head? = some '/')
    let out := (splitSep path.data).foldl (cleanStep rooted) []
    if rooted then String.mk ('/' :: joinSep out)
    else if out = [] then "."
    else String.mk (joinSep out)

/-- Go `filepath.Join(a, b)` on a system whose separator is `/`: empty
elements are ignored, the others are joined by the separator, and the result
is cleaned. -/
def filepathJoin (a b : String) : String :=
  if a.data ≠ [] then filepathClean (String.mk (a.data ++ '/' :: b.data))
  else if b.data ≠ [] then filepathClean b
  else ""

/-- The function `cleanPkgPath` of `main.go`; the error value `nil` is
`none`. -/
def cleanPkgPath (name modName : String) : String × Option String :=
  let name :=
    if stringsHasPrefix name "./" then filepathJoin modName (sliceFrom name 2) else name
  (name, none)

/-- The loop `for _, pkg := range flag.Args()` of `main` and the loop over
`toprint` after it: the lines written to the standard output.  The lines of
the log are left out.  With `direct` the loop returns from `main` after the
first argument that is a key of `pkgdeps`. -/
def mainArgs (fuel : Nat) (direct : Bool) (modname : String) (pkgdeps : DepMap) :
    List String → List String → Option (List String)
  | [], toprint => some toprint
  | arg :: rest, toprint =>
    match cleanPkgPath arg modname with
    | (_, some _) => mainArgs fuel direct modname pkgdeps rest toprint
    | (pkg, none) =>
      match pkgdeps.lookup pkg with
      | none => mainArgs fuel direct modname pkgdeps rest toprint
      | some dependants =>
        if direct then
          some dependants
        else
          match dependantsOf fuel pkg pkgdeps with
          | none => none
          | some names => mainArgs fuel direct modname pkgdeps rest (names.foldl setAdd toprint)

/-- The part of `main` after the dependant map `pkgdeps` is built and
filtered: the lines written to the standard output for the arguments
`args`, the current package `pkgname` and the module `modname`. -/
def mainOutput (fuel : Nat) (direct : Bool) (pkgname modname : String) (pkgdeps : DepMap)
    (args : List String) : Option (List String) :=
  if args.length = 0 then
    if direct then
      some ((pkgdeps.lookup pkgname).getD [])
    else
      dependantsOf fuel pkgname pkgdeps
  else
    mainArgs fuel direct modname pkgdeps args []

/-! ## The dependant relation -/

/-- The dependant relation of a map: `y` is listed in `m[x]`. -/
def Dep (m : DepMap) (x y : String) : Prop :=
  ∃ ds, m.lookup x = some ds ∧ y ∈ ds

/-- The identifier `y` is reachable from `x` in one or more steps of the
dependant relation. -/
def Reach (m : DepMap) : String → String → Prop :=
  Relation.TransGen (Dep m)

/-- The dependant relation of `m` has no cycle. -/
def Acyclic (m : DepMap) : Prop :=
  ∀ x, ¬ Reach m x x

/-- The body of the loop `for _, name := range deps` of `dependantsOf`, with
the recursive call made at nesting depth `fuel`. -/
def closureStep (fuel : Nat) (m : DepMap) (dm : List String) (name : String) :
    Option (List String) :=
  match dependantsOf fuel name m with
  | none => none
  | some ts => some (ts.foldl setAdd (setAdd dm name))

/-! ## Notions used to state the traversal -/

/-- One import of `pkg` as `visit` handles it: `visit(pkg.Imports[path])`. -/
def visitImport {σ : Type} (g : Graph) (pre : Package → σ → Bool × σ) (fuel : Nat)
    (pkg : Package) (s : List Nat × σ) (path : String) : Option (List Nat × σ) :=
  match pkg.Imports.lookup path with
  | none => some s
  | some q => visit g pre fuel q s

/-- The number of package records of the heap that are not marked as seen. -/
def unseen (g : Graph) (seen : List Nat) : Nat :=
  (List.range g.length).countP (fun i => decide (i ∉ seen))

/-- The package at `x` has all its imports in `S`, if it is one whose
imports the traversal follows (an externally-classified one). -/
def closedAt (g : Graph) (x : Nat) (S : List Nat) : Prop :=
  ∀ pkg, g[x]? = some pkg → packageIsExternal pkg.ID = true →
    ∀ path q, pkg.Imports.lookup path = some q → q ∈ S

/-- The packages the traversal reaches from the roots `pkgs`: the roots, and
the imports of every reached package that is classified external. -/
inductive Reached (g : Graph) (pkgs : List Nat) : Nat → Prop
  | root (ptr : Nat) : ptr ∈ pkgs → Reached g pkgs ptr
  | step (ptr : Nat) (pkg : Package) (path : String) (q : Nat) :
      Reached g pkgs ptr → g[ptr]? = some pkg → packageIsExternal pkg.ID = true →
      pkg.Imports.lookup path = some q → Reached g pkgs q

/-- The identifier `y` is a direct dependant of `x` that the traversal
records: a reached package with identifier `y`, classified external, imports
the path `x`, classified external. -/
def DirectDep (g : Graph) (pkgs : List Nat) (x y : String) : Prop :=
  ∃ q Q, Reached g pkgs q ∧ g[q]? = some Q ∧ Q.ID = y ∧ packageIsExternal y = true ∧
    x ∈ Q.Imports.keys ∧ packageIsExternal x = true

/-- A link of a chain that survives the filter for the module `M`: `y` is a
recorded direct dependant of `x`, and `x` has a recorded direct dependant
whose identifier is prefixed by `M`. -/
def KeptLink (g : Graph) (pkgs : List Nat) (M : String) (x y : String) : Prop :=
  DirectDep g pkgs x y ∧ ∃ z, DirectDep g pkgs x z ∧ stringsHasPrefix z M = true

/-! ## Fixtures -/

/-- The dependant map of the scenario of the specification, before the
filter: `github.com/x/lib` is imported by two packages of the module
`example.com/app`, and `github.com/y/core` by `github.com/x/lib`. -/
def exampleMap : DepMap :=
  [⟨"github.com/x/lib", ["example.com/app/a", "example.com/app/b"]⟩,
   ⟨"github.com/y/core", ["github.com/x/lib"]⟩].toAList

/-- A dependant map with a cycle: `a` is listed for `b` and `b` for `a`. -/
def cyclicMap : DepMap :=
  [⟨"a", ["b"]⟩, ⟨"b", ["a"]⟩].toAList

/-- A rank that falls along the dependant relation of `exampleMap`. -/
def exampleRank (x : String) : Nat :=
  if x = "github.com/y/core" then 2 else if x = "github.com/x/lib" then 1 else 0

/-- The record of `example.com/app/a` in `scenarioGraph`. -/
def scenarioA : Package :=
  ⟨"example.com/app/a", [⟨"github.com/x/lib", 2⟩, ⟨"fmt", 4⟩].toAList⟩

/-- The record of `github.com/x/lib` in `scenarioGraph`. -/
def scenarioLib : Package :=
  ⟨"github.com/x/lib", [⟨"github.com/y/core", 3⟩].toAList⟩

/-- The package graph of the scenario of the specification, with the
standard-library package `fmt` added: the roots are the records 0 and 1. -/
def scenarioGraph : Graph :=
  [scenarioA,
   ⟨"example.com/app/b", [⟨"github.com/x/lib", 2⟩].toAList⟩,
   scenarioLib,
   ⟨"github.com/y/core", ∅⟩,
   ⟨"fmt", ∅⟩]

/-- The record of `github.com/x/lib` in `localGraph`. -/
def localLib : Package :=
  ⟨"github.com/x/lib", [⟨"github.com/y/core", 2⟩].toAList⟩

/-- The package graph of a module named `app`: the package `app/a` of the
module, record 0, is classified internal; it imports `github.com/x/lib`,
which imports `github.com/y/core`. -/
def localGraph : Graph :=
  [⟨"app/a", [⟨"github.com/x/lib", 1⟩].toAList⟩,
   ⟨"github.com/x/lib", [⟨"github.com/y/core", 2⟩].toAList⟩,
   ⟨"github.com/y/core", ∅⟩]

/-- A package graph in which `example.com/app/a` depends on
`github.com/y/core` through `github.com/z/mid` and `github.com/x/lib`, and
`example.com/app/b` imports `github.com/y/core`; the roots are the records 0
and 1. -/
def chainGraph : Graph :=
  [⟨"example.com/app/a", [⟨"github.com/z/mid", 2⟩].toAList⟩,
   ⟨"example.com/app/b", [⟨"github.com/y/core", 4⟩].toAList⟩,
   ⟨"github.com/z/mid", [⟨"github.com/x/lib", 3⟩].toAList⟩,
   ⟨"github.com/x/lib", [⟨"github.com/y/core", 4⟩].toAList⟩,
   ⟨"github.com/y/core", ∅⟩]

/-- The dependant map that `collectDependants` builds from `chainGraph`. -/
def chainMap : DepMap :=
  [⟨"github.com/y/core", ["github.com/x/lib", "example.com/app/b"]⟩,
   ⟨"github.com/x/lib", ["github.com/z/mid"]⟩,
   ⟨"github.com/z/mid", ["example.com/app/a"]⟩].toAList

/-- The package graph of the scenario of the specification: the roots
`example.com/app/a` and `example.com/app/b` (records 0 and 1) import
`github.com/x/lib`, which imports `github.com/y/core`. -/
def fixtureGraph : Graph :=
  [⟨"example.com/app/a", [⟨"github.com/x/lib", 2⟩].toAList⟩,
   ⟨"example.com/app/b", [⟨"github.com/x/lib", 2⟩].toAList⟩,
   ⟨"github.com/x/lib", [⟨"github.com/y/core", 3⟩].toAList⟩,
   ⟨"github.com/y/core", ∅⟩]

/-- The dependant map of the example of a key lost to the filter:
`github.com/y/core` is listed only for `github.com/x/lib`, which is listed
for `example.com/app/a`. -/
def pruneMap : DepMap :=
  [⟨"github.com/y/core", ["github.com/x/lib"]⟩,
   ⟨"github.com/x/lib", ["example.com/app/a"]⟩].toAList

/-- A dependant map whose only key has the single dependant
`example.com/app2/x`, a package of another module than `example.com/app`. -/
def siblingMap : DepMap :=
  [⟨"github.com/x/lib", ["example.com/app2/x"]⟩].toAList

/-- A dependant map with a diamond and a repeated entry:
`example.com/app/a` is reached from `github.com/y/core` through
`github.com/x/lib` and through `github.com/z/mid`, and `github.com/x/lib` is
listed twice. -/
def diamondMap : DepMap :=
  [⟨"github.com/y/core", ["github.com/x/lib", "github.com/z/mid", "github.com/x/lib"]⟩,
   ⟨"github.com/x/lib", ["example.com/app/a"]⟩,
   ⟨"github.com/z/mid", ["example.com/app/a"]⟩].toAList

/-- A rank that falls along the dependant relation of `diamondMap`. -/
def diamondRank (x : String) : Nat :=
  if x = "github.com/y/core" then 2
  else if x = "github.com/x/lib" then 1
  else if x = "github.com/z/mid" then 1
  else 0

/-- A list of arguments of `main` in which arguments that are no keys of the
filtered map of `chainGraph` stand before and between two that are. -/
def queryArgs : List String :=
  ["unknown/pkg", "github.com/y/core", "./missing", "github.com/z/mid"]

/-! ## Facts about the string functions -/

theorem indexOf_split (a : Char) (l : List Char) (h : a ∈ l) :
    l = l.take (l.indexOf a) ++ a :: l.drop (l.indexOf a + 1) ∧
      a ∉ l.take (l.indexOf a) := by
  induction l with
  | nil => simp at h
  | cons b t ih =>
    by_cases hb : b = a
    · subst hb
      simp [List.indexOf_cons_self]
    · have ht : a ∈ t := by
        rcases List.mem_cons.mp h with h1 | h1
        · exact absurd h1.symm hb
        · exact h1
      have hi : (b :: t).indexOf a = t.indexOf a + 1 :=
        List.indexOf_cons_ne t hb
      obtain ⟨h1, h2⟩ := ih ht
      rw [hi]
      refine ⟨?_, ?_⟩
      · simp only [List.take_succ_cons, List.drop_succ_cons, List.cons_append]
        rw [← h1]
      · simp only [List.take_succ_cons, List.mem_cons, not_or]
        exact ⟨fun hab => hb hab.symm, h2⟩

theorem indexOf_of_split (a : Char) (pre post : List Char) (h : a ∉ pre) :
    (pre ++ a :: post).indexOf a = pre.length := by
  induction pre with
  | nil => simp
  | cons b t ih =>
    have hb : b ≠ a := fun hab => h (by simp [hab])
    have ht : a ∉ t := fun hat => h (List.mem_cons_of_mem _ hat)
    rw [List.cons_append, List.indexOf_cons_ne _ hb, ih ht]
    rfl

theorem packageIsExternal_of_sep (name : String) (h : '/' ∈ name.data) :
    packageIsExternal name = decide ('.' ∈ name.data.take (name.data.indexOf '/')) := by
  have hne : ¬ ((name.data.indexOf '/' : Int) = -1) := by omega
  simp only [packageIsExternal, stringsIndex, stringsContains, sliceTo, if_pos h, if_neg hne,
    Int.toNat_ofNat]

theorem packageIsExternal_of_no_sep (name : String) (h : '/' ∉ name.data) :
    packageIsExternal name = false := by
  simp [packageIsExternal, stringsIndex, h]

/-- C10: `packageIsExternal name` is true exactly when `name` contains a
`/` and the substring before the first `/` (the `pre` of the unique
splitting `name = pre ++ "/" ++ post` with no `/` in `pre`) contains a `.`;
in particular it is false for a name without `/`. -/
theorem C10_packageIsExternal_iff (name : String) :
    (packageIsExternal name = true ↔
      '/' ∈ name.data ∧
        ∃ pre post : List Char, name.data = pre ++ '/' :: post ∧ '/' ∉ pre ∧ '.' ∈ pre) ∧
    ('/' ∉ name.data → packageIsExternal name = false) := by
  refine ⟨⟨fun h => ?_, fun h => ?_⟩, packageIsExternal_of_no_sep name⟩
  · by_cases hs : '/' ∈ name.data
    · rw [packageIsExternal_of_sep name hs] at h
      obtain ⟨h1, h2⟩ := indexOf_split '/' name.data hs
      exact ⟨hs, _, _, h1, h2, of_decide_eq_true h⟩
    · rw [packageIsExternal_of_no_sep name hs] at h
      exact absurd h (by decide)
  · obtain ⟨hs, pre, post, h1, h2, h3⟩ := h
    rw [packageIsExternal_of_sep name hs, h1, indexOf_of_split '/' pre post h2]
    simpa using h3

/-! ## The module filter -/

theorem hasLocalModDep_foldl (M : String) (ds : List String) (flag : Bool) :
    ds.foldl (fun flag dep => if stringsHasPrefix dep M then true else flag) flag
      = (flag || ds.any (fun d => stringsHasPrefix d M)) := by
  induction ds generalizing flag with
  | nil => simp
  | cons d t ih =>
    rw [List.foldl_cons, ih]
    cases hd : stringsHasPrefix d M <;> cases flag <;> simp [hd]

theorem hasLocalModDep_eq_any (M : String) (ds : List String) :
    hasLocalModDep M ds = ds.any (fun d => stringsHasPrefix d M) := by
  unfold hasLocalModDep
  rw [hasLocalModDep_foldl]
  simp

theorem trimList_foldl_mem (M : String) (es : List (Sigma fun _ : String => List String))
    (rm : List String) (k : String) :
    k ∈ es.foldl (fun rm e => if !hasLocalModDep M e.2 then rm ++ [e.1] else rm) rm
      ↔ k ∈ rm ∨ ∃ ds, (⟨k, ds⟩ : Sigma fun _ : String => List String) ∈ es ∧
          hasLocalModDep M ds = false := by
  induction es generalizing rm with
  | nil => simp
  | cons e t ih =>
    rw [List.foldl_cons, ih]
    obtain ⟨k1, ds1⟩ := e
    cases h : hasLocalModDep M ds1
    · simp only [Bool.not_false, if_true, List.mem_append, List.mem_singleton, List.mem_cons,
        Sigma.mk.inj_iff, heq_eq_eq, List.not_mem_nil, or_false]
      constructor
      · rintro ((h1 | h1) | ⟨ds, h2, h3⟩)
        · exact Or.inl h1
        · exact Or.inr ⟨ds1, Or.inl ⟨h1, rfl⟩, h⟩
        · exact Or.inr ⟨ds, Or.inr h2, h3⟩
      · rintro (h1 | ⟨ds, (⟨h2, h3⟩ | h2), h4⟩)
        · exact Or.inl (Or.inl h1)
        · exact Or.inl (Or.inr h2)
        · exact Or.inr ⟨ds, h2, h4⟩
    · simp only [Bool.not_true, List.mem_cons, Sigma.mk.inj_iff, heq_eq_eq]
      constructor
      · rintro (h1 | ⟨ds, h2, h3⟩)
        · exact Or.inl h1
        · exact Or.inr ⟨ds, Or.inr h2, h3⟩
      · rintro (h1 | ⟨ds, (⟨_, h3⟩ | h2), h4⟩)
        · exact Or.inl h1
        · rw [h3, h] at h4
          exact absurd h4 (by decide)
        · exact Or.inr ⟨ds, h2, h4⟩

theorem mem_trimList (M : String) (m : DepMap) (k : String) :
    k ∈ trimList M m ↔ ∃ ds, m.lookup k = some ds ∧ hasLocalModDep M ds = false := by
  unfold trimList
  rw [trimList_foldl_mem]
  simp only [List.not_mem_nil, false_or]
  constructor
  · rintro ⟨ds, h1, h2⟩
    exact ⟨ds, Option.mem_def.mp (AList.mem_lookup_iff.mpr h1), h2⟩
  · rintro ⟨ds, h1, h2⟩
    exact ⟨ds, AList.mem_lookup_iff.mp (Option.mem_def.mpr h1), h2⟩

theorem lookup_foldl_erase (rm : List String) (m : DepMap) (k : String) :
    (rm.foldl (fun m pkg => m.erase pkg) m).lookup k
      = if k ∈ rm then none else m.lookup k := by
  induction rm generalizing m with
  | nil => simp
  | cons a t ih =>
    rw [List.foldl_cons, ih]
    by_cases hk : k ∈ t
    · simp [hk]
    · by_cases ha : k = a
      · subst ha
        simp [hk, AList.lookup_erase]
      · simp [hk, ha, AList.lookup_erase_ne ha]

theorem lookup_trimExtModDeps (M : String) (m : DepMap) (k : String) :
    (trimExtModDeps M m).lookup k
      = (m.lookup k).filter (fun ds => ds.any (fun d => stringsHasPrefix d M)) := by
  unfold trimExtModDeps
  rw [lookup_foldl_erase]
  cases h : m.lookup k with
  | none =>
    have hk : k ∉ trimList M m := by
      rw [mem_trimList]
      rintro ⟨ds, h1, _⟩
      rw [h] at h1
      exact Option.noConfusion h1
    simp [Option.filter, hk]
  | some ds =>
    cases hd : hasLocalModDep M ds
    · have hk : k ∈ trimList M m := (mem_trimList M m k).mpr ⟨ds, h, hd⟩
      rw [hasLocalModDep_eq_any] at hd
      simp [Option.filter, hk, hd]
    · have hk : k ∉ trimList M m := by
        rw [mem_trimList]
        rintro ⟨ds1, h1, h2⟩
        rw [h] at h1
        cases h1
        rw [hd] at h2
        exact Bool.noConfusion h2
      rw [hasLocalModDep_eq_any] at hd
      simp [Option.filter, hk, hd]

/-! ## The transitive closure -/

theorem mem_setAdd (dm : List String) (x y : String) :
    y ∈ setAdd dm x ↔ y ∈ dm ∨ y = x := by
  unfold setAdd
  by_cases h : x ∈ dm
  · rw [if_pos h]
    constructor
    · exact Or.inl
    · rintro (h1 | h1)
      · exact h1
      · exact h1 ▸ h
  · rw [if_neg h]
    simp

theorem mem_foldl_setAdd (ts dm : List String) (y : String) :
    y ∈ ts.foldl setAdd dm ↔ y ∈ dm ∨ y ∈ ts := by
  induction ts generalizing dm with
  | nil => simp
  | cons t ts ih =>
    rw [List.foldl_cons, ih, mem_setAdd, List.mem_cons]
    tauto

theorem dependantsOf_succ (fuel : Nat) (x : String) (m : DepMap) :
    dependantsOf (fuel + 1) x m =
      match m.lookup x with
      | none => some []
      | some deps => deps.foldlM (closureStep fuel m) [] := rfl

theorem foldlM_closureStep_mono (fuel : Nat) (m : DepMap)
    (ih : ∀ x r, dependantsOf fuel x m = some r → dependantsOf (fuel + 1) x m = some r)
    (deps : List String) (dm r : List String)
    (h : deps.foldlM (closureStep fuel m) dm = some r) :
    deps.foldlM (closureStep (fuel + 1) m) dm = some r := by
  induction deps generalizing dm with
  | nil => simpa using h
  | cons d t iht =>
    rw [List.foldlM_cons] at h ⊢
    cases hd : dependantsOf fuel d m with
    | none => simp [closureStep, hd] at h
    | some ts =>
      have h1 : closureStep fuel m dm d = some (ts.foldl setAdd (setAdd dm d)) := by
        simp [closureStep, hd]
      have h2 : closureStep (fuel + 1) m dm d = some (ts.foldl setAdd (setAdd dm d)) := by
        simp [closureStep, ih d ts hd]
      rw [h1] at h
      rw [h2]
      exact iht _ h

theorem dependantsOf_succ_of_some (fuel : Nat) (m : DepMap) :
    ∀ x r, dependantsOf fuel x m = some r → dependantsOf (fuel + 1) x m = some r := by
  induction fuel with
  | zero =>
    intro x r h
    exact Option.noConfusion h
  | succ n ih =>
    intro x r h
    rw [dependantsOf_succ] at h ⊢
    cases hl : m.lookup x with
    | none =>
      rw [hl] at h
      exact h
    | some deps =>
      rw [hl] at h
      exact foldlM_closureStep_mono n m ih deps [] r h

theorem dependantsOf_mono (m : DepMap) (x : String) (r : List String) (fuel fuel' : Nat)
    (hle : fuel ≤ fuel') (h : dependantsOf fuel x m = some r) :
    dependantsOf fuel' x m = some r := by
  induction hle with
  | refl => exact h
  | step _ ih => exact dependantsOf_succ_of_some _ m x r ih

theorem reach_iff_head (m : DepMap) (x y : String) :
    Reach m x y ↔ ∃ name, Dep m x name ∧ (y = name ∨ Reach m name y) := by
  unfold Reach
  rw [Relation.TransGen.head'_iff]
  constructor
  · rintro ⟨b, h1, h2⟩
    exact ⟨b, h1, Relation.reflTransGen_iff_eq_or_transGen.mp h2⟩
  · rintro ⟨b, h1, h2⟩
    exact ⟨b, h1, Relation.reflTransGen_iff_eq_or_transGen.mpr h2⟩

theorem not_reach_of_lookup_none (m : DepMap) (x y : String) (h : m.lookup x = none) :
    ¬ Reach m x y := by
  rw [reach_iff_head]
  rintro ⟨name, ⟨ds, h1, _⟩, _⟩
  rw [h] at h1
  exact Option.noConfusion h1

/-- The loop of `dependantsOf` over `deps`, when every recursive call
returns the identifiers reachable from its argument. -/
theorem foldlM_closureStep_spec (fuel : Nat) (m : DepMap) (deps : List String)
    (h : ∀ name ∈ deps, ∃ r, dependantsOf fuel name m = some r ∧ ∀ y, y ∈ r ↔ Reach m name y)
    (dm : List String) :
    ∃ r, deps.foldlM (closureStep fuel m) dm = some r ∧
      ∀ y, y ∈ r ↔ y ∈ dm ∨ ∃ name ∈ deps, y = name ∨ Reach m name y := by
  induction deps generalizing dm with
  | nil => exact ⟨dm, rfl, by simp⟩
  | cons d t ih =>
    obtain ⟨ts, hts, hmem⟩ := h d (List.mem_cons_self d t)
    obtain ⟨r, hr, hrmem⟩ :=
      ih (fun name hn => h name (List.mem_cons_of_mem d hn)) (ts.foldl setAdd (setAdd dm d))
    refine ⟨r, ?_, ?_⟩
    · rw [List.foldlM_cons]
      have h1 : closureStep fuel m dm d = some (ts.foldl setAdd (setAdd dm d)) := by
        simp [closureStep, hts]
      rw [h1]
      exact hr
    · intro y
      rw [hrmem, mem_foldl_setAdd, mem_setAdd, hmem]
      constructor
      · rintro (((h1 | h1) | h1) | ⟨name, hn, h2⟩)
        · exact Or.inl h1
        · exact Or.inr ⟨d, List.mem_cons_self d t, Or.inl h1⟩
        · exact Or.inr ⟨d, List.mem_cons_self d t, Or.inr h1⟩
        · exact Or.inr ⟨name, List.mem_cons_of_mem d hn, h2⟩
      · rintro (h1 | ⟨name, hn, h2⟩)
        · exact Or.inl (Or.inl (Or.inl h1))
        · rcases List.mem_cons.mp hn with hd | ht
          · subst hd
            rcases h2 with h2 | h2
            · exact Or.inl (Or.inl (Or.inr h2))
            · exact Or.inl (Or.inr h2)
          · exact Or.inr ⟨name, ht, h2⟩

theorem exists_common_fuel (m : DepMap) (deps : List String)
    (h : ∀ name ∈ deps, ∃ fuel r, dependantsOf fuel name m = some r ∧
      ∀ y, y ∈ r ↔ Reach m name y) :
    ∃ fuel, ∀ name ∈ deps, ∃ r, dependantsOf fuel name m = some r ∧
      ∀ y, y ∈ r ↔ Reach m name y := by
  induction deps with
  | nil => exact ⟨0, by simp⟩
  | cons d t ih =>
    obtain ⟨f1, r1, h1, h1m⟩ := h d (List.mem_cons_self d t)
    obtain ⟨f2, h2⟩ := ih (fun name hn => h name (List.mem_cons_of_mem d hn))
    refine ⟨max f1 f2, ?_⟩
    intro name hn
    rcases List.mem_cons.mp hn with hd | ht
    · subst hd
      exact ⟨r1, dependantsOf_mono m _ r1 f1 _ (le_max_left f1 f2) h1, h1m⟩
    · obtain ⟨r, hr, hrm⟩ := h2 name ht
      exact ⟨r, dependantsOf_mono m name r f2 _ (le_max_right f1 f2) hr, hrm⟩

/-- Where no infinite chain of dependants starts, `dependantsOf` returns,
and it returns the identifiers reachable in one or more steps. -/
theorem dependantsOf_of_acc (m : DepMap) (start : String)
    (h : Acc (fun y x => Dep m x y) start) :
    ∃ fuel r, dependantsOf fuel start m = some r ∧ ∀ y, y ∈ r ↔ Reach m start y := by
  induction h with
  | intro x _ ih =>
    cases hl : m.lookup x with
    | none =>
      refine ⟨1, [], ?_, ?_⟩
      · rw [dependantsOf_succ, hl]
      · intro y
        simp [not_reach_of_lookup_none m x y hl]
    | some deps =>
      obtain ⟨fuel, hfuel⟩ := exists_common_fuel m deps (fun name hn => ih name ⟨deps, hl, hn⟩)
      obtain ⟨r, hr, hrm⟩ := foldlM_closureStep_spec fuel m deps hfuel []
      refine ⟨fuel + 1, r, ?_, ?_⟩
      · rw [dependantsOf_succ, hl]
        exact hr
      · intro y
        rw [hrm, reach_iff_head]
        simp only [List.not_mem_nil, false_or]
        constructor
        · rintro ⟨name, hn, h2⟩
          exact ⟨name, ⟨deps, hl, hn⟩, h2⟩
        · rintro ⟨name, ⟨ds, h1, hn⟩, h2⟩
          rw [hl] at h1
          cases h1
          exact ⟨name, hn, h2⟩

theorem foldlM_closureStep_some (fuel : Nat) (m : DepMap) (deps : List String)
    (dm r : List String) (h : deps.foldlM (closureStep fuel m) dm = some r) :
    ∀ name ∈ deps, ∃ ts, dependantsOf fuel name m = some ts := by
  induction deps generalizing dm with
  | nil => simp
  | cons d t ih =>
    rw [List.foldlM_cons] at h
    cases hd : dependantsOf fuel d m with
    | none => simp [closureStep, hd] at h
    | some ts =>
      have h1 : closureStep fuel m dm d = some (ts.foldl setAdd (setAdd dm d)) := by
        simp [closureStep, hd]
      rw [h1] at h
      intro name hn
      rcases List.mem_cons.mp hn with hn | hn
      · exact ⟨ts, hn ▸ hd⟩
      · exact ih _ h name hn

/-- A call of `dependantsOf` that returns starts no infinite chain of
dependants. -/
theorem acc_of_dependantsOf (m : DepMap) (fuel : Nat) :
    ∀ x r, dependantsOf fuel x m = some r → Acc (fun y x => Dep m x y) x := by
  induction fuel with
  | zero =>
    intro x r h
    exact Option.noConfusion h
  | succ n ih =>
    intro x r h
    refine Acc.intro x (fun y hy => ?_)
    obtain ⟨ds, hl, hy⟩ := hy
    rw [dependantsOf_succ, hl] at h
    obtain ⟨ts, hts⟩ := foldlM_closureStep_some n m ds [] r h y hy
    exact ih y ts hts

theorem mem_keys_of_dep (m : DepMap) (x y : String) (h : Dep m x y) : x ∈ m.keys := by
  obtain ⟨ds, hl, _⟩ := h
  rw [← AList.mem_keys, ← AList.lookup_isSome, hl]
  rfl

theorem not_reach_self_of_acc (m : DepMap) (c : String)
    (h : Acc (fun y x => Dep m x y) c) : ¬ Reach m c c := by
  have h2 : Acc (Relation.TransGen (fun y x => Dep m x y)) c := h.transGen
  have h3 : ∀ x, Acc (Relation.TransGen (fun y x => Dep m x y)) x →
      ¬ Relation.TransGen (fun y x => Dep m x y) x x := by
    intro x hx
    induction hx with
    | intro x _ ih => exact fun hxx => ih x hxx hxx
  intro hc
  exact h3 c h2 (Relation.transGen_swap.mpr hc)

theorem acc_of_reflTransGen (m : DepMap) (start c : String)
    (h : Acc (fun y x => Dep m x y) start) (hc : Relation.ReflTransGen (Dep m) start c) :
    Acc (fun y x => Dep m x y) c := by
  induction hc with
  | refl => exact h
  | tail _ hbc ih => exact ih.inv hbc

/-- In a (finite) map, no infinite chain of dependants starts at an
identifier from which no cycle can be reached. -/
theorem acc_of_no_reachable_cycle (m : DepMap) (start : String)
    (h : ∀ c, Relation.ReflTransGen (Dep m) start c → ¬ Reach m c c) :
    Acc (fun y x => Dep m x y) start := by
  let K := { x : String // x ∈ m.keys ∧ Relation.ReflTransGen (Dep m) start x }
  haveI : Finite K :=
    Finite.of_injective (fun a : K => (⟨a.1, a.2.1⟩ : { x : String // x ∈ m.keys }))
      (fun a b hab => Subtype.ext (congrArg
        (fun c : { x : String // x ∈ m.keys } => c.1) hab))
  let r : K → K → Prop := fun a b => Reach m b.1 a.1
  haveI : IsTrans K r := ⟨fun _ _ _ hab hbc => Relation.TransGen.trans hbc hab⟩
  haveI : IsIrrefl K r := ⟨fun a haa => h a.1 a.2.2 haa⟩
  have wf : WellFounded r := Finite.wellFounded_of_trans_of_irrefl r
  have key : ∀ a : K, Acc (fun y x => Dep m x y) a.1 := by
    intro a
    induction a using wf.induction with
    | _ a ih =>
      refine Acc.intro _ (fun y hy => ?_)
      by_cases hk : y ∈ m.keys
      · exact ih ⟨y, hk, a.2.2.tail hy⟩ (Relation.TransGen.single hy)
      · exact Acc.intro _ (fun z hz => absurd (mem_keys_of_dep m y z hz) hk)
  by_cases hk : start ∈ m.keys
  · exact key ⟨start, hk, Relation.ReflTransGen.refl⟩
  · exact Acc.intro _ (fun z hz => absurd (mem_keys_of_dep m start z hz) hk)

theorem acc_of_acyclic (m : DepMap) (h : Acyclic m) (start : String) :
    Acc (fun y x => Dep m x y) start :=
  acc_of_no_reachable_cycle m start (fun c _ => h c)

theorem acyclic_of_rank (m : DepMap) (rank : String → Nat)
    (h : ∀ x y, Dep m x y → rank y < rank x) : Acyclic m := by
  have h2 : ∀ x y, Reach m x y → rank y < rank x := by
    intro x y hxy
    induction hxy with
    | single h1 => exact h _ _ h1
    | tail _ h1 ih => exact lt_trans (h _ _ h1) ih
  exact fun x hx => lt_irrefl _ (h2 x x hx)

theorem exampleMap_acyclic : Acyclic exampleMap := by
  refine acyclic_of_rank exampleMap exampleRank ?_
  rintro x y ⟨ds, hl, hy⟩
  have he : (⟨x, ds⟩ : Sigma fun _ : String => List String) ∈ exampleMap.entries :=
    AList.mem_lookup_iff.mp (Option.mem_def.mpr hl)
  have hent : exampleMap.entries =
      [⟨"github.com/x/lib", ["example.com/app/a", "example.com/app/b"]⟩,
       ⟨"github.com/y/core", ["github.com/x/lib"]⟩] := by decide
  rw [hent] at he
  simp only [List.mem_cons, Sigma.mk.inj_iff, heq_eq_eq, List.not_mem_nil, or_false] at he
  rcases he with ⟨hx, hds⟩ | ⟨hx, hds⟩
  · subst hx hds
    simp only [List.mem_cons, List.not_mem_nil, or_false] at hy
    rcases hy with hy | hy <;> subst hy <;> decide
  · subst hx hds
    simp only [List.mem_cons, List.not_mem_nil, or_false] at hy
    subst hy
    decide

/-! ## The claims about the closure and the filter -/

/-- C1: for a map whose dependant relation is acyclic, `dependantsOf start m`
returns, the identifiers it returns are exactly those reachable from
`start` in one or more steps of the relation "`y` is listed in `m[x]`", and
`start` is not among them. -/
theorem C1_dependantsOf_eq_reachable (m : DepMap) (start : String) (h : Acyclic m) :
    ∃ fuel r, dependantsOf fuel start m = some r ∧
      (∀ y, y ∈ r ↔ Reach m start y) ∧ start ∉ r := by
  obtain ⟨fuel, r, hr, hmem⟩ := dependantsOf_of_acc m start (acc_of_acyclic m h start)
  exact ⟨fuel, r, hr, hmem, fun hs => h start ((hmem start).mp hs)⟩

/-- C1 at `exampleMap`, which is acyclic, with `start = github.com/y/core`. -/
theorem C1_witness :
    Acyclic exampleMap ∧
      ∃ fuel r, dependantsOf fuel "github.com/y/core" exampleMap = some r ∧
        (∀ y, y ∈ r ↔ Reach exampleMap "github.com/y/core" y) ∧
        "github.com/y/core" ∉ r :=
  ⟨exampleMap_acyclic,
    C1_dependantsOf_eq_reachable exampleMap "github.com/y/core" exampleMap_acyclic⟩

/-- C2, as stated, fails: on the map `{a: [b], b: [a]}` the call
`dependantsOf a` returns at no nesting depth. -/
theorem C2_counterexample : ¬ ∃ fuel r, dependantsOf fuel "a" cyclicMap = some r := by
  rintro ⟨fuel, r, h⟩
  have hacc := acc_of_dependantsOf cyclicMap fuel "a" r h
  have hab : Dep cyclicMap "a" "b" := ⟨["b"], by decide, by decide⟩
  have hba : Dep cyclicMap "b" "a" := ⟨["a"], by decide, by decide⟩
  exact not_reach_self_of_acc cyclicMap "a" hacc
    (Relation.TransGen.tail (Relation.TransGen.single hab) hba)

/-- C2, amended: `dependantsOf start m` returns exactly when no identifier
that lies on a cycle of the dependant relation can be reached from `start`
in zero or more steps. -/
theorem C2_dependantsOf_returns_iff (m : DepMap) (start : String) :
    (∃ fuel r, dependantsOf fuel start m = some r) ↔
      ∀ c, Relation.ReflTransGen (Dep m) start c → ¬ Reach m c c := by
  constructor
  · rintro ⟨fuel, r, h⟩ c hc
    exact not_reach_self_of_acc m c
      (acc_of_reflTransGen m start c (acc_of_dependantsOf m fuel start r h) hc)
  · intro h
    obtain ⟨fuel, r, hr, _⟩ := dependantsOf_of_acc m start (acc_of_no_reachable_cycle m start h)
    exact ⟨fuel, r, hr⟩

/-- C5: after `trimExtModDeps M m` every remaining key has a dependant list
with at least one identifier that has `M` as a prefix. -/
theorem C5_trimExtModDeps_remaining (M : String) (m : DepMap) (k : String)
    (h : k ∈ (trimExtModDeps M m).keys) :
    ∃ ds, (trimExtModDeps M m).lookup k = some ds ∧
      ∃ d ∈ ds, stringsHasPrefix d M = true := by
  rw [← AList.mem_keys, ← AList.lookup_isSome] at h
  obtain ⟨ds, hds⟩ := Option.isSome_iff_exists.mp h
  refine ⟨ds, hds, ?_⟩
  rw [lookup_trimExtModDeps] at hds
  cases hl : m.lookup k with
  | none =>
    rw [hl] at hds
    exact Option.noConfusion hds
  | some ds1 =>
    rw [hl] at hds
    simp only [Option.filter] at hds
    by_cases hany : (ds1.any fun d => stringsHasPrefix d M) = true
    · rw [if_pos hany] at hds
      cases hds
      exact List.any_eq_true.mp hany
    · rw [if_neg hany] at hds
      exact Option.noConfusion hds

/-- C5 at `exampleMap` filtered for the module `example.com/app`, for the key
`github.com/x/lib` that remains. -/
theorem C5_witness :
    "github.com/x/lib" ∈ (trimExtModDeps "example.com/app" exampleMap).keys ∧
      ∃ ds, (trimExtModDeps "example.com/app" exampleMap).lookup "github.com/x/lib" = some ds ∧
        ∃ d ∈ ds, stringsHasPrefix d "example.com/app" = true :=
  ⟨by decide,
    C5_trimExtModDeps_remaining "example.com/app" exampleMap "github.com/x/lib" (by decide)⟩

/-- C6: `trimExtModDeps M m` removes exactly the keys whose dependant list
has no identifier prefixed by `M`: looking a key up afterwards gives its
original list when that list has such an identifier, and nothing when it has
none or when the key was not in `m`. -/
theorem C6_trimExtModDeps_exact (M : String) (m : DepMap) (k : String) :
    (trimExtModDeps M m).lookup k =
      match m.lookup k with
      | none => none
      | some ds => if ds.any (fun d => stringsHasPrefix d M) then some ds else none := by
  rw [lookup_trimExtModDeps]
  cases m.lookup k <;> rfl

/-- C8: for a `start` that is not a key of `m`, `dependantsOf start m`
returns the empty list (at every nesting depth the call is made with). -/
theorem C8_dependantsOf_absent (m : DepMap) (start : String) (h : start ∉ m.keys)
    (fuel : Nat) : dependantsOf (fuel + 1) start m = some [] := by
  have hl : m.lookup start = none := AList.lookup_eq_none.mpr (fun hk => h (AList.mem_keys.mp hk))
  rw [dependantsOf_succ, hl]

/-- C8 at `exampleMap` with `start = example.com/app/a`, which is not a key. -/
theorem C8_witness :
    "example.com/app/a" ∉ exampleMap.keys ∧
      dependantsOf (0 + 1) "example.com/app/a" exampleMap = some [] :=
  ⟨by decide, C8_dependantsOf_absent exampleMap "example.com/app/a" (by decide) 0⟩

/-- C9: for an acyclic map the result of `dependantsOf X m` is closed under
the dependant relation: for every `y` in it, `dependantsOf y m` returns a
list contained in it, so adding the closures of the elements of the result
to the result adds nothing. -/
theorem C9_dependantsOf_closed (m : DepMap) (X : String) (h : Acyclic m) :
    ∃ fuel r, dependantsOf fuel X m = some r ∧
      (∀ y ∈ r, ∃ fuel1 ry, dependantsOf fuel1 y m = some ry ∧ ∀ z ∈ ry, z ∈ r) ∧
      (∀ z, (z ∈ r ∨ ∃ y ∈ r, ∃ fuel1 ry, dependantsOf fuel1 y m = some ry ∧ z ∈ ry)
        ↔ z ∈ r) := by
  obtain ⟨fuel, r, hr, hmem⟩ := dependantsOf_of_acc m X (acc_of_acyclic m h X)
  have hsub : ∀ y ∈ r, ∀ fuel1 ry, dependantsOf fuel1 y m = some ry → ∀ z ∈ ry, z ∈ r := by
    intro y hy fuel1 ry hry z hz
    obtain ⟨fuel2, r2, hr2, hmem2⟩ := dependantsOf_of_acc m y (acc_of_acyclic m h y)
    have heq : ry = r2 := by
      have h1 := dependantsOf_mono m y ry fuel1 (max fuel1 fuel2) (le_max_left _ _) hry
      have h2 := dependantsOf_mono m y r2 fuel2 (max fuel1 fuel2) (le_max_right _ _) hr2
      rw [h1] at h2
      exact Option.some.inj h2
    subst heq
    exact (hmem z).mpr (Relation.TransGen.trans ((hmem y).mp hy) ((hmem2 z).mp hz))
  refine ⟨fuel, r, hr, ?_, ?_⟩
  · intro y hy
    obtain ⟨fuel2, r2, hr2, _⟩ := dependantsOf_of_acc m y (acc_of_acyclic m h y)
    exact ⟨fuel2, r2, hr2, hsub y hy fuel2 r2 hr2⟩
  · intro z
    constructor
    · rintro (hz | ⟨y, hy, fuel1, ry, hry, hz⟩)
      · exact hz
      · exact hsub y hy fuel1 ry hry z hz
    · exact Or.inl

/-- C9 at `exampleMap`, which is acyclic, with `X = github.com/y/core`. -/
theorem C9_witness :
    Acyclic exampleMap ∧
      ∃ fuel r, dependantsOf fuel "github.com/y/core" exampleMap = some r ∧
        (∀ y ∈ r, ∃ fuel1 ry, dependantsOf fuel1 y exampleMap = some ry ∧ ∀ z ∈ ry, z ∈ r) ∧
        (∀ z, (z ∈ r ∨ ∃ y ∈ r, ∃ fuel1 ry,
            dependantsOf fuel1 y exampleMap = some ry ∧ z ∈ ry) ↔ z ∈ r) :=
  ⟨exampleMap_acyclic,
    C9_dependantsOf_closed exampleMap "github.com/y/core" exampleMap_acyclic⟩

/-! ## The traversal -/

theorem visit_succ {σ : Type} (g : Graph) (pre : Package → σ → Bool × σ) (fuel ptr : Nat)
    (seen : List Nat) (st : σ) :
    visit g pre (fuel + 1) ptr (seen, st) =
      if ptr ∈ seen then some (seen, st)
      else
        match g[ptr]? with
        | none => some (ptr :: seen, st)
        | some pkg =>
          if (pre pkg st).1 then
            (sortedPaths pkg).foldlM (visitImport g pre fuel pkg) (ptr :: seen, (pre pkg st).2)
          else some (ptr :: seen, (pre pkg st).2) := rfl

theorem unseen_le_of_subset (g : Graph) (seen seen' : List Nat) (h : seen ⊆ seen') :
    unseen g seen' ≤ unseen g seen := by
  unfold unseen
  apply List.countP_mono_left
  intro x _ hx
  simp only [decide_eq_true_eq] at hx ⊢
  exact fun hs => hx (h hs)

theorem countP_cons_lt (l seen : List Nat) (ptr : Nat) (hl : ptr ∈ l) (hs : ptr ∉ seen) :
    l.countP (fun i => decide (i ∉ ptr :: seen)) < l.countP (fun i => decide (i ∉ seen)) := by
  induction l with
  | nil => simp at hl
  | cons a t ih =>
    have hle : t.countP (fun i => decide (i ∉ ptr :: seen))
        ≤ t.countP (fun i => decide (i ∉ seen)) := by
      apply List.countP_mono_left
      intro x _ hx
      simp only [decide_eq_true_eq] at hx ⊢
      exact fun hm => hx (List.mem_cons_of_mem _ hm)
    by_cases ha : a = ptr
    · subst ha
      rw [List.countP_cons_of_neg, List.countP_cons_of_pos]
      · omega
      · simpa using hs
      · simp
    · have ht : ptr ∈ t := by
        rcases List.mem_cons.mp hl with h1 | h1
        · exact absurd h1.symm ha
        · exact h1
      have := ih ht
      by_cases has : a ∈ seen
      · rw [List.countP_cons_of_neg, List.countP_cons_of_neg]
        · exact this
        · simpa using has
        · simp [has]
      · rw [List.countP_cons_of_pos, List.countP_cons_of_pos]
        · omega
        · simpa using has
        · simp [has, ha]

theorem unseen_cons_lt (g : Graph) (seen : List Nat) (ptr : Nat) (pkg : Package)
    (hp : g[ptr]? = some pkg) (hs : ptr ∉ seen) : unseen g (ptr :: seen) < unseen g seen := by
  unfold unseen
  apply countP_cons_lt _ _ _ _ hs
  rw [List.mem_range]
  exact (List.getElem?_eq_some.mp hp).1

theorem unseen_le_length (g : Graph) (seen : List Nat) : unseen g seen ≤ g.length := by
  unfold unseen
  have := List.countP_le_length (fun i => decide (i ∉ seen)) (l := List.range g.length)
  simpa using this

theorem closedAt_mono (g : Graph) (x : Nat) (S S' : List Nat) (h : S ⊆ S')
    (hc : closedAt g x S) : closedAt g x S' :=
  fun pkg hp hext path q hq => h (hc pkg hp hext path q hq)

theorem collectPre_fst (pkg : Package) (st : DepMap) :
    (collectPre pkg st).1 = packageIsExternal pkg.ID := by
  unfold collectPre
  cases packageIsExternal pkg.ID <;> rfl

theorem mem_sortedPaths (pkg : Package) (path : String) :
    path ∈ sortedPaths pkg ↔ path ∈ pkg.Imports.keys :=
  (List.perm_insertionSort _ _).mem_iff

/-- The loop of `visit` over the imports of `pkg`, given what a nested call
of `visit` achieves. -/
theorem foldlM_visitImport_spec (g : Graph) (Inv : List Nat × DepMap → Prop) (A : Nat → Prop)
    (n : Nat) (pkg : Package) (seen0 : List Nat) (hlt : unseen g seen0 < n)
    (hA : ∀ path q, pkg.Imports.lookup path = some q → A q)
    (ih : ∀ ptr seen st, unseen g seen < n → A ptr → Inv (seen, st) →
      ∃ seen' st', visit g collectPre n ptr (seen, st) = some (seen', st') ∧ Inv (seen', st') ∧
        seen ⊆ seen' ∧ ptr ∈ seen' ∧ ∀ x ∈ seen', x ∉ seen → closedAt g x seen')
    (l : List String) :
    ∀ cur : List Nat × DepMap, Inv cur → seen0 ⊆ cur.1 →
      (∀ x ∈ cur.1, x ∉ seen0 → closedAt g x cur.1) →
      ∃ res, l.foldlM (visitImport g collectPre n pkg) cur = some res ∧ Inv res ∧
        cur.1 ⊆ res.1 ∧ (∀ x ∈ res.1, x ∉ seen0 → closedAt g x res.1) ∧
        ∀ path ∈ l, ∀ q, pkg.Imports.lookup path = some q → q ∈ res.1 := by
  induction l with
  | nil =>
    intro cur hinv _ hcl
    exact ⟨cur, rfl, hinv, fun _ hx => hx, hcl, by simp⟩
  | cons a t iht =>
    rintro ⟨cs, cst⟩ hinv hsub hcl
    rw [List.foldlM_cons]
    cases hla : pkg.Imports.lookup a with
    | none =>
      have h1 : visitImport g collectPre n pkg (cs, cst) a = some (cs, cst) := by
        simp [visitImport, hla]
      rw [h1]
      obtain ⟨res, hres, hinv', hsub', hcl', hall⟩ := iht (cs, cst) hinv hsub hcl
      refine ⟨res, hres, hinv', hsub', hcl', ?_⟩
      intro path hp q hq
      rcases List.mem_cons.mp hp with hpa | hpt
      · rw [hpa, hla] at hq
        exact Option.noConfusion hq
      · exact hall path hpt q hq
    | some qa =>
      have h1 : visitImport g collectPre n pkg (cs, cst) a = visit g collectPre n qa (cs, cst) := by
        simp [visitImport, hla]
      have hlt' : unseen g cs < n := lt_of_le_of_lt (unseen_le_of_subset g seen0 cs hsub) hlt
      obtain ⟨cs', cst', hv, hinv1, hsub1, hqa, hcl1⟩ := ih qa cs cst hlt' (hA a qa hla) hinv
      rw [h1, hv]
      have hcl2 : ∀ x ∈ cs', x ∉ seen0 → closedAt g x cs' := by
        intro x hx hx0
        by_cases hxc : x ∈ cs
        · exact closedAt_mono g x cs cs' hsub1 (hcl x hxc hx0)
        · exact hcl1 x hx hxc
      obtain ⟨res, hres, hinv', hsub', hcl', hall⟩ :=
        iht (cs', cst') hinv1 (fun _ hx => hsub1 (hsub hx)) hcl2
      refine ⟨res, hres, hinv', fun _ hx => hsub' (hsub1 hx), hcl', ?_⟩
      intro path hp q hq
      rcases List.mem_cons.mp hp with hpa | hpt
      · rw [hpa, hla] at hq
        cases hq
        exact hsub' hqa
      · exact hall path hpt q hq

/-- What one call of `visit` with the callback of `collectDependants`
achieves when the nesting depth exceeds the number of unseen package
records: it returns, it keeps an invariant `Inv` that marking a package
keeps, it marks `ptr`, it unmarks nothing, and every package it newly
marks has all its followed imports marked. -/
theorem visit_spec (g : Graph) (Inv : List Nat × DepMap → Prop) (A : Nat → Prop)
    (h_out : ∀ ptr seen st, A ptr → ptr ∉ seen → g[ptr]? = none → Inv (seen, st) →
      Inv (ptr :: seen, st))
    (h_mark : ∀ ptr pkg seen st, A ptr → ptr ∉ seen → g[ptr]? = some pkg → Inv (seen, st) →
      Inv (ptr :: seen, (collectPre pkg st).2))
    (h_child : ∀ ptr pkg path q, A ptr → g[ptr]? = some pkg →
      packageIsExternal pkg.ID = true → pkg.Imports.lookup path = some q → A q)
    (fuel : Nat) :
    ∀ ptr seen st, unseen g seen < fuel → A ptr → Inv (seen, st) →
      ∃ seen' st', visit g collectPre fuel ptr (seen, st) = some (seen', st') ∧
        Inv (seen', st') ∧ seen ⊆ seen' ∧ ptr ∈ seen' ∧
        ∀ x ∈ seen', x ∉ seen → closedAt g x seen' := by
  induction fuel with
  | zero =>
    intro ptr seen st hlt
    exact absurd hlt (Nat.not_lt_zero _)
  | succ n ih =>
    intro ptr seen st hlt hA hinv
    rw [visit_succ]
    by_cases hs : ptr ∈ seen
    · rw [if_pos hs]
      exact ⟨seen, st, rfl, hinv, fun _ hx => hx, hs, fun x hx hnx => absurd hx hnx⟩
    · rw [if_neg hs]
      cases hp : g[ptr]? with
      | none =>
        refine ⟨ptr :: seen, st, rfl, h_out ptr seen st hA hs hp hinv,
          fun _ hx => List.mem_cons_of_mem _ hx, List.mem_cons_self _ _, ?_⟩
        intro x hx hnx
        rcases List.mem_cons.mp hx with hxp | hxs
        · subst hxp
          intro pkg hpkg
          rw [hp] at hpkg
          exact Option.noConfusion hpkg
        · exact absurd hxs hnx
      | some pkg =>
        have hmark := h_mark ptr pkg seen st hA hs hp hinv
        simp only []
        by_cases hext : packageIsExternal pkg.ID = true
        · have hfst : (collectPre pkg st).1 = true := by rw [collectPre_fst]; exact hext
          rw [if_pos hfst]
          have hlt0 : unseen g (ptr :: seen) < n := by
            have := unseen_cons_lt g seen ptr pkg hp hs
            omega
          obtain ⟨res, hres, hinv', hsub', hcl', hall⟩ :=
            foldlM_visitImport_spec g Inv A n pkg (ptr :: seen) hlt0
              (fun path q hq => h_child ptr pkg path q hA hp hext hq) ih (sortedPaths pkg)
              (ptr :: seen, (collectPre pkg st).2) hmark (fun _ hx => hx)
              (fun x hx hnx => absurd hx hnx)
          refine ⟨res.1, res.2, hres, hinv', fun _ hx => hsub' (List.mem_cons_of_mem _ hx),
            hsub' (List.mem_cons_self _ _), ?_⟩
          intro x hx hnx
          by_cases hxp : x = ptr
          · subst hxp
            intro pkg' hpkg' _ path q hq
            rw [hp] at hpkg'
            cases hpkg'
            have hk : path ∈ pkg.Imports.keys := by
              rw [← AList.mem_keys, ← AList.lookup_isSome, hq]
              rfl
            exact hall path ((mem_sortedPaths pkg path).mpr hk) q hq
          · refine hcl' x hx ?_
            intro hm
            rcases List.mem_cons.mp hm with h1 | h1
            · exact hxp h1
            · exact hnx h1
        · have hfst : ¬ (collectPre pkg st).1 = true := by rw [collectPre_fst]; exact hext
          rw [if_neg hfst]
          refine ⟨ptr :: seen, (collectPre pkg st).2, rfl, hmark,
            fun _ hx => List.mem_cons_of_mem _ hx, List.mem_cons_self _ _, ?_⟩
          intro x hx hnx
          rcases List.mem_cons.mp hx with hxp | hxs
          · subst hxp
            intro pkg' hpkg' hext'
            rw [hp] at hpkg'
            cases hpkg'
            exact absurd hext' hext
          · exact absurd hxs hnx

/-- The loop of `packages.Visit` over the roots. -/
theorem foldlM_visit_roots (g : Graph) (Inv : List Nat × DepMap → Prop) (A : Nat → Prop)
    (hv : ∀ ptr seen st, unseen g seen < g.length + 1 → A ptr → Inv (seen, st) →
      ∃ seen' st', visit g collectPre (g.length + 1) ptr (seen, st) = some (seen', st') ∧
        Inv (seen', st') ∧ seen ⊆ seen' ∧ ptr ∈ seen' ∧
        ∀ x ∈ seen', x ∉ seen → closedAt g x seen')
    (pkgs : List Nat) :
    ∀ cur : List Nat × DepMap, (∀ ptr ∈ pkgs, A ptr) → Inv cur →
      (∀ x ∈ cur.1, closedAt g x cur.1) →
      ∃ res, pkgs.foldlM (fun s ptr => visit g collectPre (g.length + 1) ptr s) cur = some res ∧
        Inv res ∧ cur.1 ⊆ res.1 ∧ (∀ ptr ∈ pkgs, ptr ∈ res.1) ∧
        ∀ x ∈ res.1, closedAt g x res.1 := by
  induction pkgs with
  | nil =>
    intro cur _ hinv hcl
    exact ⟨cur, rfl, hinv, fun _ hx => hx, by simp, hcl⟩
  | cons a t iht =>
    rintro ⟨cs, cst⟩ hA hinv hcl
    rw [List.foldlM_cons]
    have hlt : unseen g cs < g.length + 1 := Nat.lt_succ_of_le (unseen_le_length g cs)
    obtain ⟨cs', cst', hvis, hinv1, hsub1, ha, hcl1⟩ :=
      hv a cs cst hlt (hA a (List.mem_cons_self a t)) hinv
    rw [hvis]
    have hcl2 : ∀ x ∈ cs', closedAt g x cs' := by
      intro x hx
      by_cases hxc : x ∈ cs
      · exact closedAt_mono g x cs cs' hsub1 (hcl x hxc)
      · exact hcl1 x hx hxc
    obtain ⟨res, hres, hinv', hsub', hroots, hcl'⟩ :=
      iht (cs', cst') (fun ptr hp => hA ptr (List.mem_cons_of_mem a hp)) hinv1 hcl2
    refine ⟨res, hres, hinv', fun _ hx => hsub' (hsub1 hx), ?_, hcl'⟩
    intro ptr hp
    rcases List.mem_cons.mp hp with h1 | h1
    · rw [h1]
      exact hsub' ha
    · exact hroots ptr h1

/-- What `packages.Visit` with the callback of `collectDependants` achieves:
it returns, it keeps an invariant `Inv` that marking a package keeps, it
marks every root, and every package it marks has all its followed imports
marked. -/
theorem Visit_spec (g : Graph) (Inv : List Nat × DepMap → Prop) (A : Nat → Prop)
    (h_out : ∀ ptr seen st, A ptr → ptr ∉ seen → g[ptr]? = none → Inv (seen, st) →
      Inv (ptr :: seen, st))
    (h_mark : ∀ ptr pkg seen st, A ptr → ptr ∉ seen → g[ptr]? = some pkg → Inv (seen, st) →
      Inv (ptr :: seen, (collectPre pkg st).2))
    (h_child : ∀ ptr pkg path q, A ptr → g[ptr]? = some pkg →
      packageIsExternal pkg.ID = true → pkg.Imports.lookup path = some q → A q)
    (pkgs : List Nat) (hA : ∀ ptr ∈ pkgs, A ptr) (h0 : Inv ([], ∅)) :
    ∃ seen deps, Visit g pkgs collectPre ∅ = some (seen, deps) ∧ Inv (seen, deps) ∧
      (∀ ptr ∈ pkgs, ptr ∈ seen) ∧ ∀ x ∈ seen, closedAt g x seen := by
  obtain ⟨res, hres, hinv, _, hroots, hcl⟩ :=
    foldlM_visit_roots g Inv A (visit_spec g Inv A h_out h_mark h_child (g.length + 1)) pkgs
      ([], ∅) hA h0 (fun x hx => absurd hx (List.not_mem_nil x))
  exact ⟨res.1, res.2, hres, hinv, hroots, hcl⟩

/-- Every package the traversal reaches is marked, once all roots are marked
and every marked package has its followed imports marked. -/
theorem mem_seen_of_reached (g : Graph) (pkgs seen : List Nat)
    (hroots : ∀ ptr ∈ pkgs, ptr ∈ seen) (hcl : ∀ x ∈ seen, closedAt g x seen)
    (q : Nat) (h : Reached g pkgs q) : q ∈ seen := by
  induction h with
  | root ptr hp => exact hroots ptr hp
  | step ptr pkg path q _ hpkg hext hq ih => exact hcl ptr ih pkg hpkg hext path q hq

/-! ## The callback of `collectDependants` -/

theorem lookup_addDependant (ID : String) (deps : DepMap) (name k : String) :
    (addDependant ID deps name).lookup k =
      if k = name ∧ packageIsExternal k = true then
        some ((deps.lookup k).getD [] ++ [ID])
      else deps.lookup k := by
  unfold addDependant
  by_cases hext : packageIsExternal name = true
  · by_cases hk : k = name
    · subst hk
      simp only [hext, Bool.not_true, and_self, if_true]
      rw [if_neg (by decide), AList.lookup_insert]
      cases deps.lookup k <;> rfl
    · simp only [hext, Bool.not_true, hk, false_and, if_false]
      rw [if_neg (by decide), AList.lookup_insert_ne hk]
  · have hext' : packageIsExternal name = false := by simpa using hext
    simp only [hext', Bool.not_false, if_true]
    by_cases hk : k = name
    · subst hk
      simp [hext']
    · simp [hk]

theorem lookup_foldl_addDependant (ID : String) (names : List String) (hnd : names.Nodup)
    (deps : DepMap) (k : String) :
    (names.foldl (addDependant ID) deps).lookup k =
      if k ∈ names ∧ packageIsExternal k = true then
        some ((deps.lookup k).getD [] ++ [ID])
      else deps.lookup k := by
  induction names generalizing deps with
  | nil => simp
  | cons a t ih =>
    rw [List.foldl_cons, ih (List.nodup_cons.mp hnd).2, lookup_addDependant]
    have hat : a ∉ t := (List.nodup_cons.mp hnd).1
    by_cases hk : k = a
    · subst hk
      by_cases hext : packageIsExternal k = true
      · simp [hat, hext]
      · simp [hat, hext]
    · by_cases hkt : k ∈ t
      · simp [hk, hkt]
      · simp [hk, hkt]

/-- The dependant map after the callback of `collectDependants` ran on the
package `p`. -/
theorem lookup_collectPre (p : Package) (deps : DepMap) (k : String) :
    (collectPre p deps).2.lookup k =
      if packageIsExternal p.ID = true ∧ k ∈ p.Imports.keys ∧ packageIsExternal k = true then
        some ((deps.lookup k).getD [] ++ [p.ID])
      else deps.lookup k := by
  unfold collectPre
  by_cases hext : packageIsExternal p.ID = true
  · simp only [hext, Bool.not_true, true_and]
    rw [if_neg (by decide)]
    exact lookup_foldl_addDependant p.ID p.Imports.keys p.Imports.keys_nodup deps k
  · have hext' : packageIsExternal p.ID = false := by simpa using hext
    simp [hext']

/-! ## The claims about the dependant map builder -/

theorem collectDependants_external (g : Graph) (pkgs : List Nat) :
    ∃ deps, collectDependants g pkgs = some deps ∧
      ∀ k ds, deps.lookup k = some ds →
        packageIsExternal k = true ∧ ∀ d ∈ ds, packageIsExternal d = true := by
  obtain ⟨seen, deps, hv, hinv, _, _⟩ :=
    Visit_spec g
      (fun s => ∀ k ds, s.2.lookup k = some ds →
        packageIsExternal k = true ∧ ∀ d ∈ ds, packageIsExternal d = true)
      (fun _ => True)
      (fun _ _ _ _ _ _ hinv => hinv)
      (by
        intro ptr pkg seen st _ _ _ hinv k ds hk
        simp only [] at hk
        rw [lookup_collectPre] at hk
        by_cases hc : packageIsExternal pkg.ID = true ∧ k ∈ pkg.Imports.keys ∧
            packageIsExternal k = true
        · rw [if_pos hc] at hk
          cases hk
          refine ⟨hc.2.2, ?_⟩
          intro d hd
          rcases List.mem_append.mp hd with h1 | h1
          · cases hl : st.lookup k with
            | none =>
              rw [hl] at h1
              exact absurd h1 (List.not_mem_nil d)
            | some ds0 =>
              rw [hl] at h1
              exact (hinv k ds0 hl).2 d h1
          · rw [List.mem_singleton.mp h1]
            exact hc.1
        · rw [if_neg hc] at hk
          exact hinv k ds hk)
      (fun _ _ _ _ _ _ _ _ => trivial)
      pkgs (fun _ _ => trivial)
      (by
        intro k ds hk
        rw [AList.lookup_empty] at hk
        exact Option.noConfusion hk)
  refine ⟨deps, ?_, hinv⟩
  unfold collectDependants
  rw [hv]
  rfl

/-- C4: `collectDependants` returns a map in which every key satisfies
`packageIsExternal` and every identifier of every value list satisfies
`packageIsExternal`. -/
theorem C4_collectDependants_external (g : Graph) (pkgs : List Nat) :
    ∃ deps, collectDependants g pkgs = some deps ∧
      (∀ k ∈ deps.keys, packageIsExternal k = true) ∧
      ∀ k ds, deps.lookup k = some ds → ∀ d ∈ ds, packageIsExternal d = true := by
  obtain ⟨deps, hd, hext⟩ := collectDependants_external g pkgs
  refine ⟨deps, hd, ?_, fun k ds hk => (hext k ds hk).2⟩
  intro k hk
  rw [← AList.mem_keys, ← AList.lookup_isSome] at hk
  obtain ⟨ds, hds⟩ := Option.isSome_iff_exists.mp hk
  exact (hext k ds hds).1

/-- The map built by `collectDependants` lists, for every externally
classified import path of a reached, externally classified package, the
identifier of that package. -/
theorem collectDependants_complete (g : Graph) (pkgs : List Nat) :
    ∃ deps, collectDependants g pkgs = some deps ∧
      ∀ q Q path, Reached g pkgs q → g[q]? = some Q → packageIsExternal Q.ID = true →
        path ∈ Q.Imports.keys → packageIsExternal path = true →
        ∃ ds, deps.lookup path = some ds ∧ Q.ID ∈ ds := by
  obtain ⟨seen, deps, hv, hinv, hroots, hcl⟩ :=
    Visit_spec g
      (fun s => ∀ x ∈ s.1, ∀ Q, g[x]? = some Q → packageIsExternal Q.ID = true →
        ∀ path ∈ Q.Imports.keys, packageIsExternal path = true →
        ∃ ds, s.2.lookup path = some ds ∧ Q.ID ∈ ds)
      (fun _ => True)
      (by
        intro ptr seen st _ _ hp hinv x hx Q hQ
        rcases List.mem_cons.mp hx with h1 | h1
        · rw [h1, hp] at hQ
          exact Option.noConfusion hQ
        · exact hinv x h1 Q hQ)
      (by
        intro ptr pkg seen st _ _ hp hinv x hx Q hQ hext path hpath hpext
        simp only []
        rw [lookup_collectPre]
        rcases List.mem_cons.mp hx with h1 | h1
        · rw [h1, hp] at hQ
          cases hQ
          rw [if_pos ⟨hext, hpath, hpext⟩]
          exact ⟨_, rfl, List.mem_append_right _ (List.mem_singleton_self _)⟩
        · obtain ⟨ds, hds, hmem⟩ := hinv x h1 Q hQ hext path hpath hpext
          by_cases hc : packageIsExternal pkg.ID = true ∧ path ∈ pkg.Imports.keys ∧
              packageIsExternal path = true
          · rw [if_pos hc]
            refine ⟨_, rfl, List.mem_append_left _ ?_⟩
            rw [hds]
            exact hmem
          · rw [if_neg hc]
            exact ⟨ds, hds, hmem⟩)
      (fun _ _ _ _ _ _ _ _ => trivial)
      pkgs (fun _ _ => trivial)
      (fun x hx => absurd hx (List.not_mem_nil x))
  refine ⟨deps, ?_, ?_⟩
  · unfold collectDependants
    rw [hv]
    rfl
  · intro q Q path hreach hQ hext hpath hpext
    exact hinv q (mem_seen_of_reached g pkgs seen hroots hcl q hreach) Q hQ hext path hpath hpext

/-- Handed only the record of `app/a` of `localGraph` as a root, the
traversal stops at it, since it is classified internal, and the map built is
empty: the importer `github.com/x/lib` of `github.com/y/core` is listed
only when the traversal reaches it. -/
theorem collectDependants_below_internal_root :
    ∃ Q P : Package, localGraph[1]? = some Q ∧ localGraph[2]? = some P ∧
      packageIsExternal Q.ID = true ∧ packageIsExternal P.ID = true ∧
      Q.Imports.lookup P.ID = some 2 ∧
      ∃ deps, collectDependants localGraph [0] = some deps ∧ deps.lookup P.ID = none :=
  ⟨_, _, rfl, rfl, by decide, by decide, by decide, ∅, rfl, rfl⟩

/-- For every package `Q` that the traversal reaches (a root, or an import
of a reached externally classified package) and that is classified
external, and every import of `Q` whose path is classified external, the
list of `collectDependants(pkgs)` for that path contains the identifier of
`Q`. -/
theorem collectDependants_lists_reached_importers (g : Graph) (pkgs : List Nat)
    (q : Nat) (Q : Package) (path : String) (p : Nat)
    (hreach : Reached g pkgs q) (hQ : g[q]? = some Q)
    (hQext : packageIsExternal Q.ID = true)
    (himp : Q.Imports.lookup path = some p) (hPext : packageIsExternal path = true) :
    ∃ deps, collectDependants g pkgs = some deps ∧
      ∃ ds, deps.lookup path = some ds ∧ Q.ID ∈ ds := by
  obtain ⟨deps, hd, hall⟩ := collectDependants_complete g pkgs
  have hk : path ∈ Q.Imports.keys := by
    rw [← AList.mem_keys, ← AList.lookup_isSome, himp]
    rfl
  exact ⟨deps, hd, hall q Q path hreach hQ hQext hk hPext⟩

/-- In `scenarioGraph`, `github.com/x/lib` is reached through the root
`example.com/app/a` and imports `github.com/y/core`, so it is listed. -/
theorem collectDependants_lists_reached_importers_example :
    ∃ deps, collectDependants scenarioGraph [0, 1] = some deps ∧
      ∃ ds, deps.lookup "github.com/y/core" = some ds ∧ "github.com/x/lib" ∈ ds :=
  collectDependants_lists_reached_importers scenarioGraph [0, 1] 2
    scenarioLib "github.com/y/core" 3
    (Reached.step 0 scenarioA "github.com/x/lib" 2 (Reached.root 0 (by decide)) rfl
      (by decide) (by decide))
    rfl (by decide) (by decide) (by decide)

/-- C3: for a loaded package graph, in which the loader hands over every
package record as a root, and every externally classified import path `P`:
the list of `collectDependants(pkgs)` for `P` contains the identifier of
every externally classified package `Q` of the graph that imports `P`
directly. -/
theorem C3_collectDependants_lists_importers (g : Graph) (pkgs : List Nat)
    (hroots : ∀ i, i < g.length → i ∈ pkgs)
    (q : Nat) (Q : Package) (path : String) (p : Nat)
    (hQ : g[q]? = some Q) (hQext : packageIsExternal Q.ID = true)
    (himp : Q.Imports.lookup path = some p) (hPext : packageIsExternal path = true) :
    ∃ deps, collectDependants g pkgs = some deps ∧
      ∃ ds, deps.lookup path = some ds ∧ Q.ID ∈ ds := by
  obtain ⟨deps, hd, hall⟩ := collectDependants_complete g pkgs
  have hk : path ∈ Q.Imports.keys := by
    rw [← AList.mem_keys, ← AList.lookup_isSome, himp]
    rfl
  have hq : q ∈ pkgs := hroots q (List.getElem?_eq_some.mp hQ).1
  exact ⟨deps, hd, hall q Q path (Reached.root q hq) hQ hQext hk hPext⟩

/-- C3 at `localGraph` with all three records as roots: `github.com/x/lib`
imports `github.com/y/core` and is listed for it, although the package
`app/a` that imports it is classified internal. -/
theorem C3_witness :
    (∀ i, i < localGraph.length → i ∈ [0, 1, 2]) ∧
      ∃ deps, collectDependants localGraph [0, 1, 2] = some deps ∧
        ∃ ds, deps.lookup "github.com/y/core" = some ds ∧ "github.com/x/lib" ∈ ds :=
  ⟨by decide,
    C3_collectDependants_lists_importers localGraph [0, 1, 2] (by decide) 1 localLib
      "github.com/y/core" 2 rfl (by decide) (by decide) (by decide)⟩

/-! ## The claim about the whole pipeline -/

theorem dep_of_dep_trim (M : String) (m : DepMap) (x y : String)
    (h : Dep (trimExtModDeps M m) x y) : Dep m x y := by
  obtain ⟨ds, hl, hy⟩ := h
  rw [lookup_trimExtModDeps] at hl
  cases hm : m.lookup x with
  | none =>
    rw [hm] at hl
    exact Option.noConfusion hl
  | some ds1 =>
    rw [hm] at hl
    simp only [Option.filter] at hl
    by_cases hany : (ds1.any fun d => stringsHasPrefix d M) = true
    · rw [if_pos hany] at hl
      cases hl
      exact ⟨ds, hm, hy⟩
    · rw [if_neg hany] at hl
      exact Option.noConfusion hl

theorem acyclic_trim (M : String) (m : DepMap) (h : Acyclic m) :
    Acyclic (trimExtModDeps M m) := by
  intro x hx
  exact h x (Relation.TransGen.mono (dep_of_dep_trim M m) hx)

theorem dep_trim_of_keptLink (g : Graph) (pkgs : List Nat) (M : String) (deps : DepMap)
    (hall : ∀ q Q path, Reached g pkgs q → g[q]? = some Q → packageIsExternal Q.ID = true →
      path ∈ Q.Imports.keys → packageIsExternal path = true →
      ∃ ds, deps.lookup path = some ds ∧ Q.ID ∈ ds)
    (x y : String) (h : KeptLink g pkgs M x y) : Dep (trimExtModDeps M deps) x y := by
  obtain ⟨⟨q, Q, hq, hQ, hid, hyext, hx, hxext⟩, z, ⟨q', Q', hq', hQ', hid', hzext, hx', _⟩, hpre⟩ := h
  obtain ⟨ds, hds, hmem⟩ := hall q Q x hq hQ (hid ▸ hyext) hx hxext
  obtain ⟨ds', hds', hmem'⟩ := hall q' Q' x hq' hQ' (hid' ▸ hzext) hx' hxext
  rw [hds] at hds'
  cases hds'
  rw [hid] at hmem
  rw [hid'] at hmem'
  refine ⟨ds, ?_, hmem⟩
  rw [lookup_trimExtModDeps, hds]
  have hany : (ds.any fun d => stringsHasPrefix d M) = true :=
    List.any_eq_true.mpr ⟨z, hmem', hpre⟩
  simp [Option.filter, hany]

/-- C7, as stated, fails: in `chainGraph` the package `example.com/app/a`
of the module `example.com/app` depends on `github.com/y/core` through the
externally classified `github.com/z/mid` and `github.com/x/lib`, and
`github.com/y/core` is still a key after the filter; but the filter removes
the key `github.com/x/lib`, and `dependantsOf` on the filtered map does not
return `example.com/app/a`. -/
theorem C7_counterexample :
    ∃ deps, collectDependants chainGraph [0, 1] = some deps ∧
      "github.com/y/core" ∈ (trimExtModDeps "example.com/app" deps).keys ∧
      stringsHasPrefix "example.com/app/a" "example.com/app" = true ∧
      Reach deps "github.com/y/core" "example.com/app/a" ∧
      ∃ r, dependantsOf 3 "github.com/y/core" (trimExtModDeps "example.com/app" deps) = some r ∧
        "example.com/app/a" ∉ r := by
  refine ⟨chainMap, rfl, by decide, by decide, ?_,
    ["github.com/x/lib", "example.com/app/b"], by decide, by decide⟩
  have h1 : Dep chainMap "github.com/y/core" "github.com/x/lib" :=
    ⟨["github.com/x/lib", "example.com/app/b"], by decide, by decide⟩
  have h2 : Dep chainMap "github.com/x/lib" "github.com/z/mid" :=
    ⟨["github.com/z/mid"], by decide, by decide⟩
  have h3 : Dep chainMap "github.com/z/mid" "example.com/app/a" :=
    ⟨["example.com/app/a"], by decide, by decide⟩
  exact Relation.TransGen.tail (Relation.TransGen.tail (Relation.TransGen.single h1) h2) h3

/-- C7, amended: when the dependant relation of the filtered map is acyclic,
`dependantsOf T` on the map built by `collectDependants` and filtered by
`trimExtModDeps M` returns, and its result contains every identifier `Q` (in
particular every package of module `M`) that is joined to `T` by a chain of
recorded direct dependants in which every link starts at an identifier that
the filter keeps, that is, one with a recorded direct dependant prefixed by
`M`. -/
theorem C7_dependantsOf_contains_kept_chains (g : Graph) (pkgs : List Nat) (M T Q : String)
    (hac : ∀ deps, collectDependants g pkgs = some deps → Acyclic (trimExtModDeps M deps))
    (hchain : Relation.TransGen (KeptLink g pkgs M) T Q) :
    ∃ deps, collectDependants g pkgs = some deps ∧
      ∃ fuel r, dependantsOf fuel T (trimExtModDeps M deps) = some r ∧ Q ∈ r := by
  obtain ⟨deps, hd, hall⟩ := collectDependants_complete g pkgs
  obtain ⟨fuel, r, hr, hmem⟩ :=
    dependantsOf_of_acc (trimExtModDeps M deps) T (acc_of_acyclic _ (hac deps hd) T)
  refine ⟨deps, hd, fuel, r, hr, (hmem Q).mpr ?_⟩
  exact Relation.TransGen.mono (dep_trim_of_keptLink g pkgs M deps hall) hchain

/-- C7, amended, at `scenarioGraph` with the module `example.com/app`: the
chain from `github.com/x/lib` to `example.com/app/a` has one link. -/
theorem C7_witness :
    (∀ deps, collectDependants scenarioGraph [0, 1] = some deps →
        Acyclic (trimExtModDeps "example.com/app" deps)) ∧
      Relation.TransGen (KeptLink scenarioGraph [0, 1] "example.com/app")
        "github.com/x/lib" "example.com/app/a" ∧
      ∃ deps, collectDependants scenarioGraph [0, 1] = some deps ∧
        ∃ fuel r, dependantsOf fuel "github.com/x/lib"
            (trimExtModDeps "example.com/app" deps) = some r ∧
          "example.com/app/a" ∈ r := by
  have hac : ∀ deps, collectDependants scenarioGraph [0, 1] = some deps →
      Acyclic (trimExtModDeps "example.com/app" deps) := by
    intro deps hd
    have he : collectDependants scenarioGraph [0, 1] = some exampleMap := rfl
    rw [he] at hd
    cases hd
    exact acyclic_trim _ _ exampleMap_acyclic
  have hdd : DirectDep scenarioGraph [0, 1] "github.com/x/lib" "example.com/app/a" :=
    ⟨0, scenarioA, Reached.root 0 (by decide), rfl, rfl, by decide, by decide, by decide⟩
  have hchain : Relation.TransGen (KeptLink scenarioGraph [0, 1] "example.com/app")
      "github.com/x/lib" "example.com/app/a" :=
    Relation.TransGen.single ⟨hdd, "example.com/app/a", hdd, by decide⟩
  exact ⟨hac, hchain,
    C7_dependantsOf_contains_kept_chains scenarioGraph [0, 1] "example.com/app"
      "github.com/x/lib" "example.com/app/a" hac hchain⟩

/-! ## The scenario of the specification and the filter by raw prefix -/

/-- C11: on the fixture graph, `collectDependants` yields the map with
exactly the keys `github.com/x/lib` (dependants `example.com/app/a` and
`example.com/app/b`) and `github.com/y/core` (dependant `github.com/x/lib`);
`trimExtModDeps` with the module `example.com/app` removes
`github.com/y/core` and keeps `github.com/x/lib`; and `dependantsOf`, the
direct list, and the output of `main` without and with `-direct` for
`github.com/x/lib` all consist of `example.com/app/a` and
`example.com/app/b`. -/
theorem C11_fixture_scenario :
    collectDependants fixtureGraph [0, 1] = some exampleMap ∧
    exampleMap.keys = ["github.com/x/lib", "github.com/y/core"] ∧
    exampleMap.lookup "github.com/x/lib" = some ["example.com/app/a", "example.com/app/b"] ∧
    exampleMap.lookup "github.com/y/core" = some ["github.com/x/lib"] ∧
    (trimExtModDeps "example.com/app" exampleMap).keys = ["github.com/x/lib"] ∧
    (trimExtModDeps "example.com/app" exampleMap).lookup "github.com/x/lib"
      = some ["example.com/app/a", "example.com/app/b"] ∧
    dependantsOf 2 "github.com/x/lib" (trimExtModDeps "example.com/app" exampleMap)
      = some ["example.com/app/a", "example.com/app/b"] ∧
    mainOutput 2 false "example.com/app/a" "example.com/app"
        (trimExtModDeps "example.com/app" exampleMap) ["github.com/x/lib"]
      = some ["example.com/app/a", "example.com/app/b"] ∧
    mainOutput 2 true "example.com/app/a" "example.com/app"
        (trimExtModDeps "example.com/app" exampleMap) ["github.com/x/lib"]
      = some ["example.com/app/a", "example.com/app/b"] :=
  ⟨rfl, by decide, by decide, by decide, by decide, by decide, by decide, by decide,
    by decide⟩

/-- C12, the code at the failing input: with `-direct` and the two arguments
`github.com/y/core` and `github.com/z/mid`, both keys of the filtered map
of `chainGraph`, `main` prints the direct dependants of the first argument
only; `example.com/app/a`, the direct dependant of the second, is not
printed. -/
theorem C12_direct_prints_first_key_only :
    collectDependants chainGraph [0, 1] = some chainMap ∧
    (trimExtModDeps "example.com/app" chainMap).lookup "github.com/y/core"
      = some ["github.com/x/lib", "example.com/app/b"] ∧
    (trimExtModDeps "example.com/app" chainMap).lookup "github.com/z/mid"
      = some ["example.com/app/a"] ∧
    ∀ fuel, mainOutput fuel true "example.com/app/a" "example.com/app"
        (trimExtModDeps "example.com/app" chainMap)
        ["github.com/y/core", "github.com/z/mid"]
      = some ["github.com/x/lib", "example.com/app/b"] :=
  ⟨rfl, by decide, by decide, fun _ => rfl⟩

/-- C18: `trimExtModDeps` with the module `example.com/app` removes the key
`github.com/y/core` from `pruneMap`, although the key `github.com/x/lib`,
which is kept, lists the package `example.com/app/a` of the module and is
itself a dependant of `github.com/y/core`; after the filter
`dependantsOf github.com/y/core` is empty. -/
theorem C18_filter_removes_transitively_needed_key :
    ∃ (m : DepMap) (M P K d : String),
      P ∈ m.keys ∧ P ∉ (trimExtModDeps M m).keys ∧
      K ∈ (trimExtModDeps M m).keys ∧ Dep m K d ∧ stringsHasPrefix d M = true ∧
      Reach m P K ∧ Reach m P d ∧
      ∀ fuel, dependantsOf (fuel + 1) P (trimExtModDeps M m) = some [] := by
  have h1 : Dep pruneMap "github.com/y/core" "github.com/x/lib" :=
    ⟨["github.com/x/lib"], by decide, by decide⟩
  have h2 : Dep pruneMap "github.com/x/lib" "example.com/app/a" :=
    ⟨["example.com/app/a"], by decide, by decide⟩
  refine ⟨pruneMap, "example.com/app", "github.com/y/core", "github.com/x/lib",
    "example.com/app/a", by decide, by decide, by decide, h2, by decide,
    Relation.TransGen.single h1, Relation.TransGen.tail (Relation.TransGen.single h1) h2, ?_⟩
  intro fuel
  rw [dependantsOf_succ]
  have hl : (trimExtModDeps "example.com/app" pruneMap).lookup "github.com/y/core" = none := by
    decide
  rw [hl]

/-- C19: `trimExtModDeps` decides by raw string prefix: with the module
`example.com/app`, the key whose only dependant is `example.com/app2/x`,
which is neither the module name nor under `example.com/app/`, is kept. -/
theorem C19_filter_by_raw_prefix :
    ∃ (m : DepMap) (M k d : String),
      m.lookup k = some [d] ∧ d ≠ M ∧
      stringsHasPrefix d (String.mk (M.data ++ ['/'])) = false ∧
      (trimExtModDeps M m).lookup k = some [d] :=
  ⟨siblingMap, "example.com/app", "github.com/x/lib", "example.com/app2/x",
    by decide, by decide, by decide, by decide⟩

/-! ## The package-path normaliser -/

theorem splitSep_ne_nil (s : List Char) : splitSep s ≠ [] := by
  cases s with
  | nil => simp [splitSep]
  | cons c cs =>
    unfold splitSep
    by_cases hc : c = '/'
    · simp [hc]
    · rw [if_neg hc]
      cases splitSep cs <;> simp

theorem joinSep_cons_char (c : Char) (e : List Char) (es : List (List Char)) :
    joinSep ((c :: e) :: es) = c :: joinSep (e :: es) := by
  cases es <;> simp [joinSep]

theorem joinSep_splitSep (s : List Char) : joinSep (splitSep s) = s := by
  induction s with
  | nil => simp [splitSep, joinSep]
  | cons c cs ih =>
    unfold splitSep
    by_cases hc : c = '/'
    · rw [if_pos hc]
      cases hs : splitSep cs with
      | nil => exact absurd hs (splitSep_ne_nil cs)
      | cons e es =>
        rw [hs] at ih
        simp [joinSep, ih, hc]
    · rw [if_neg hc]
      cases hs : splitSep cs with
      | nil => exact absurd hs (splitSep_ne_nil cs)
      | cons e es =>
        rw [hs] at ih
        simp only []
        rw [joinSep_cons_char, ih]

theorem cleanStep_of_real (rooted : Bool) (out : List (List Char)) (e : List Char)
    (h : realElem e = true) : cleanStep rooted out e = out ++ [e] := by
  unfold realElem at h
  obtain ⟨h1, h2, h3⟩ := of_decide_eq_true h
  unfold cleanStep
  rw [if_neg (fun hc => hc.elim h1 h2), if_neg h3]

theorem foldl_cleanStep_of_real (rooted : Bool) (es : List (List Char))
    (h : es.all realElem = true) (out : List (List Char)) :
    es.foldl (cleanStep rooted) out = out ++ es := by
  induction es generalizing out with
  | nil => simp
  | cons e t ih =>
    rw [List.all_cons, Bool.and_eq_true] at h
    rw [List.foldl_cons, cleanStep_of_real rooted out e h.1, ih h.2]
    simp

/-- A path all of whose elements are kept as they are is its own cleaned
form. -/
theorem filepathClean_of_real (path : String)
    (h : (splitSep path.data).all realElem = true) : filepathClean path = path := by
  have hne : path.data ≠ [] := by
    intro he
    rw [he] at h
    exact absurd h (by decide)
  have hroot : ¬ (path.data.head? = some '/') := by
    intro hh
    cases hd : path.data with
    | nil => exact hne hd
    | cons c cs =>
      rw [hd] at hh h
      have hc : c = '/' := by simpa using hh
      subst hc
      simp [splitSep, realElem] at h
  have hout : (splitSep path.data).foldl (cleanStep false) [] = splitSep path.data := by
    rw [foldl_cleanStep_of_real false _ h []]
    rfl
  unfold filepathClean
  rw [if_neg hne]
  simp only [hroot, decide_False, hout, if_neg (splitSep_ne_nil path.data), joinSep_splitSep]
  rfl

/-- C14, as stated, fails: for `name = "./sub/"`, that is `rest = "sub/"`,
and the module `example.com/app`, `cleanPkgPath` returns
`example.com/app/sub`, not `example.com/app/sub/`. -/
theorem C14_counterexample :
    cleanPkgPath "./sub/" "example.com/app" = ("example.com/app/sub", none) ∧
      (cleanPkgPath "./sub/" "example.com/app").1
        ≠ String.mk ("example.com/app".data ++ '/' :: "sub/".data) := by
  decide

/-- C14, amended: `cleanPkgPath` returns a nil error; a `name` that does not
begin with `./` is returned unchanged; and for `name = "./" ++ rest` the
returned string is `filepath.Join(modName, rest)`, which is
`modName ++ "/" ++ rest` whenever every element of that path is neither
empty nor `.` nor `..`. -/
theorem C14_cleanPkgPath (name modName : String) :
    (cleanPkgPath name modName).2 = none ∧
    (stringsHasPrefix name "./" = false → (cleanPkgPath name modName).1 = name) ∧
    (∀ rest : String, name.data = '.' :: '/' :: rest.data →
      (cleanPkgPath name modName).1 = filepathJoin modName rest ∧
      ((splitSep (modName.data ++ '/' :: rest.data)).all realElem = true →
        (cleanPkgPath name modName).1 = String.mk (modName.data ++ '/' :: rest.data))) := by
  refine ⟨rfl, ?_, ?_⟩
  · intro h
    simp [cleanPkgPath, h]
  · intro rest hrest
    have hpre : stringsHasPrefix name "./" = true := by
      unfold stringsHasPrefix
      rw [hrest]
      simp [List.isPrefixOf]
    have hslice : sliceFrom name 2 = rest := by
      unfold sliceFrom
      rw [hrest]
      rfl
    have hjoin : (cleanPkgPath name modName).1 = filepathJoin modName rest := by
      simp [cleanPkgPath, hpre, hslice]
    refine ⟨hjoin, ?_⟩
    intro hreal
    have hmod : modName.data ≠ [] := by
      intro he
      rw [he] at hreal
      simp [splitSep, realElem] at hreal
    rw [hjoin]
    unfold filepathJoin
    rw [if_pos hmod]
    exact filepathClean_of_real _ hreal

/-! ## The result of the closure has no repetition -/

theorem setAdd_nodup (dm : List String) (x : String) (h : dm.Nodup) :
    (setAdd dm x).Nodup := by
  unfold setAdd
  by_cases hx : x ∈ dm
  · rw [if_pos hx]
    exact h
  · rw [if_neg hx]
    exact List.Nodup.append h (List.nodup_singleton x)
      (by
        intro a ha hb
        rw [List.mem_singleton.mp hb] at ha
        exact hx ha)

theorem foldl_setAdd_nodup (ts dm : List String) (h : dm.Nodup) :
    (ts.foldl setAdd dm).Nodup := by
  induction ts generalizing dm with
  | nil => exact h
  | cons t ts ih => exact ih _ (setAdd_nodup dm t h)

theorem foldlM_closureStep_nodup (fuel : Nat) (m : DepMap) (deps : List String)
    (dm r : List String) (hdm : dm.Nodup)
    (h : deps.foldlM (closureStep fuel m) dm = some r) : r.Nodup := by
  induction deps generalizing dm with
  | nil =>
    have : dm = r := by simpa using h
    exact this ▸ hdm
  | cons d t ih =>
    rw [List.foldlM_cons] at h
    cases hd : dependantsOf fuel d m with
    | none => simp [closureStep, hd] at h
    | some ts =>
      have h1 : closureStep fuel m dm d = some (ts.foldl setAdd (setAdd dm d)) := by
        simp [closureStep, hd]
      rw [h1] at h
      exact ih _ (foldl_setAdd_nodup ts _ (setAdd_nodup dm d hdm)) h

/-- Whatever `dependantsOf` returns has no identifier twice. -/
theorem dependantsOf_nodup (fuel : Nat) (start : String) (m : DepMap) (r : List String)
    (h : dependantsOf fuel start m = some r) : r.Nodup := by
  cases fuel with
  | zero => exact Option.noConfusion h
  | succ n =>
    rw [dependantsOf_succ] at h
    cases hl : m.lookup start with
    | none =>
      rw [hl] at h
      cases h
      exact List.nodup_nil
    | some deps =>
      rw [hl] at h
      exact foldlM_closureStep_nodup n m deps [] r List.nodup_nil h

theorem diamondMap_acyclic : Acyclic diamondMap := by
  refine acyclic_of_rank diamondMap diamondRank ?_
  rintro x y ⟨ds, hl, hy⟩
  have he : (⟨x, ds⟩ : Sigma fun _ : String => List String) ∈ diamondMap.entries :=
    AList.mem_lookup_iff.mp (Option.mem_def.mpr hl)
  have hent : diamondMap.entries =
      [⟨"github.com/y/core", ["github.com/x/lib", "github.com/z/mid", "github.com/x/lib"]⟩,
       ⟨"github.com/x/lib", ["example.com/app/a"]⟩,
       ⟨"github.com/z/mid", ["example.com/app/a"]⟩] := by decide
  rw [hent] at he
  simp only [List.mem_cons, Sigma.mk.inj_iff, heq_eq_eq, List.not_mem_nil, or_false] at he
  rcases he with ⟨hx, hds⟩ | ⟨hx, hds⟩ | ⟨hx, hds⟩
  · subst hx hds
    simp only [List.mem_cons, List.not_mem_nil, or_false] at hy
    rcases hy with hy | hy | hy <;> subst hy <;> decide
  · subst hx hds
    simp only [List.mem_cons, List.not_mem_nil, or_false] at hy
    subst hy
    decide
  · subst hx hds
    simp only [List.mem_cons, List.not_mem_nil, or_false] at hy
    subst hy
    decide

/-- C17: for an acyclic map, `dependantsOf start m` returns a list in which
no identifier occurs more than once. -/
theorem C17_dependantsOf_nodup (m : DepMap) (start : String) (h : Acyclic m) :
    ∃ fuel r, dependantsOf fuel start m = some r ∧ r.Nodup := by
  obtain ⟨fuel, r, hr, _⟩ := dependantsOf_of_acc m start (acc_of_acyclic m h start)
  exact ⟨fuel, r, hr, dependantsOf_nodup fuel start m r hr⟩

/-- C17 at `diamondMap`, which is acyclic, has a diamond and lists
`github.com/x/lib` twice, with `start = github.com/y/core`. -/
theorem C17_witness :
    Acyclic diamondMap ∧
      ∃ fuel r, dependantsOf fuel "github.com/y/core" diamondMap = some r ∧ r.Nodup :=
  ⟨diamondMap_acyclic, C17_dependantsOf_nodup diamondMap "github.com/y/core" diamondMap_acyclic⟩

/-! ## What the dependant map builder records -/

/-- Every identifier listed by `collectDependants` for `P` is a recorded
direct dependant of `P`. -/
theorem collectDependants_sound (g : Graph) (pkgs : List Nat) :
    ∃ deps, collectDependants g pkgs = some deps ∧
      ∀ P ds, deps.lookup P = some ds → ∀ Qid ∈ ds, DirectDep g pkgs P Qid := by
  obtain ⟨seen, deps, hv, hinv, _, _⟩ :=
    Visit_spec g
      (fun s => ∀ P ds, s.2.lookup P = some ds → ∀ Qid ∈ ds, DirectDep g pkgs P Qid)
      (fun ptr => Reached g pkgs ptr)
      (fun _ _ _ _ _ _ hinv => hinv)
      (by
        intro ptr pkg seen st hreach _ hp hinv P ds hk
        simp only [] at hk
        rw [lookup_collectPre] at hk
        by_cases hc : packageIsExternal pkg.ID = true ∧ P ∈ pkg.Imports.keys ∧
            packageIsExternal P = true
        · rw [if_pos hc] at hk
          cases hk
          intro Qid hQ
          rcases List.mem_append.mp hQ with h1 | h1
          · cases hl : st.lookup P with
            | none =>
              rw [hl] at h1
              exact absurd h1 (List.not_mem_nil Qid)
            | some ds0 =>
              rw [hl] at h1
              exact hinv P ds0 hl Qid h1
          · rw [List.mem_singleton.mp h1]
            exact ⟨ptr, pkg, hreach, hp, rfl, hc.1, hc.2.1, hc.2.2⟩
        · rw [if_neg hc] at hk
          exact hinv P ds hk)
      (fun ptr pkg path q hreach hp hext hq => Reached.step ptr pkg path q hreach hp hext hq)
      pkgs (fun ptr hp => Reached.root ptr hp)
      (by
        intro P ds hk
        rw [AList.lookup_empty] at hk
        exact Option.noConfusion hk)
  refine ⟨deps, ?_, hinv⟩
  unfold collectDependants
  rw [hv]
  rfl

/-- C15: if the identifier `Qid` appears in the list of
`collectDependants(pkgs)` for `P`, then `Qid` is the identifier of a package
that the traversal reached (a root, or an import of a reached package
classified external, so that no package entered only below an internally
classified one contributes), `Qid` is classified external, and `P` is one of
the import paths of that package. -/
theorem C15_collectDependants_entries_from_reached (g : Graph) (pkgs : List Nat) :
    ∃ deps, collectDependants g pkgs = some deps ∧
      ∀ P ds Qid, deps.lookup P = some ds → Qid ∈ ds →
        ∃ q Q, Reached g pkgs q ∧ g[q]? = some Q ∧ Q.ID = Qid ∧
          packageIsExternal Qid = true ∧ P ∈ Q.Imports.keys := by
  obtain ⟨deps, hd, hall⟩ := collectDependants_sound g pkgs
  refine ⟨deps, hd, ?_⟩
  intro P ds Qid hl hQ
  obtain ⟨q, Q, h1, h2, h3, h4, h5, _⟩ := hall P ds hl Qid hQ
  exact ⟨q, Q, h1, h2, h3, h4, h5⟩

theorem ptr_eq_of_ID_eq (g : Graph) (hid : (g.map Package.ID).Nodup) (i j : Nat)
    (p p' : Package) (hi : g[i]? = some p) (hj : g[j]? = some p') (h : p.ID = p'.ID) :
    i = j := by
  have hmi : (g.map Package.ID)[i]? = some p.ID := by
    rw [List.getElem?_map, hi]
    rfl
  have hmj : (g.map Package.ID)[j]? = some p'.ID := by
    rw [List.getElem?_map, hj]
    rfl
  have hil : i < (g.map Package.ID).length := by
    rw [List.length_map]
    exact (List.getElem?_eq_some.mp hi).1
  have hjl : j < (g.map Package.ID).length := by
    rw [List.length_map]
    exact (List.getElem?_eq_some.mp hj).1
  rcases Nat.lt_trichotomy i j with hlt | heq | hgt
  · exact absurd (by rw [hmi, hmj, h])
      (List.nodup_iff_getElem?_ne_getElem?.mp hid i j hlt hjl)
  · exact heq
  · exact absurd (by rw [hmi, hmj, h])
      (List.nodup_iff_getElem?_ne_getElem?.mp hid j i hgt hil)

/-- C16: in a package graph whose package identifiers are pairwise distinct,
no list of `collectDependants(pkgs)` contains an identifier twice. -/
theorem C16_collectDependants_nodup (g : Graph) (pkgs : List Nat)
    (hid : (g.map Package.ID).Nodup) :
    ∃ deps, collectDependants g pkgs = some deps ∧
      ∀ P ds, deps.lookup P = some ds → ds.Nodup := by
  obtain ⟨seen, deps, hv, hinv, _, _⟩ :=
    Visit_spec g
      (fun s => ∀ P ds, s.2.lookup P = some ds →
        ds.Nodup ∧ ∀ id ∈ ds, ∃ x ∈ s.1, ∃ pkg, g[x]? = some pkg ∧ pkg.ID = id)
      (fun _ => True)
      (by
        intro ptr seen st _ _ _ hinv P ds hk
        obtain ⟨h1, h2⟩ := hinv P ds hk
        refine ⟨h1, ?_⟩
        intro id hidm
        obtain ⟨x, hx, pkg, hp, hpid⟩ := h2 id hidm
        exact ⟨x, List.mem_cons_of_mem _ hx, pkg, hp, hpid⟩)
      (by
        intro ptr pkg seen st _ hns hp hinv P ds hk
        simp only [] at hk
        rw [lookup_collectPre] at hk
        have hold : ∀ ds0, st.lookup P = some ds0 →
            ds0.Nodup ∧ ∀ id ∈ ds0, ∃ x ∈ ptr :: seen, ∃ pkg, g[x]? = some pkg ∧ pkg.ID = id := by
          intro ds0 hl
          obtain ⟨h1, h2⟩ := hinv P ds0 hl
          refine ⟨h1, ?_⟩
          intro id hidm
          obtain ⟨x, hx, pkg1, hp1, hpid⟩ := h2 id hidm
          exact ⟨x, List.mem_cons_of_mem _ hx, pkg1, hp1, hpid⟩
        by_cases hc : packageIsExternal pkg.ID = true ∧ P ∈ pkg.Imports.keys ∧
            packageIsExternal P = true
        · rw [if_pos hc] at hk
          cases hk
          cases hl : st.lookup P with
          | none =>
            refine ⟨by simp, ?_⟩
            intro id hidm
            have : id = pkg.ID := by simpa using hidm
            exact ⟨ptr, List.mem_cons_self _ _, pkg, hp, this.symm⟩
          | some ds0 =>
            obtain ⟨h1, h2⟩ := hinv P ds0 hl
            have hnot : pkg.ID ∉ ds0 := by
              intro hmem
              obtain ⟨x, hx, pkg1, hp1, hpid⟩ := h2 pkg.ID hmem
              have hxp : x = ptr := ptr_eq_of_ID_eq g hid x ptr pkg1 pkg hp1 hp hpid
              exact hns (hxp ▸ hx)
            refine ⟨?_, ?_⟩
            · simp only [Option.getD_some]
              exact List.Nodup.append h1 (List.nodup_singleton _)
                (by
                  intro a ha hb
                  rw [List.mem_singleton.mp hb] at ha
                  exact hnot ha)
            · intro id hidm
              simp only [Option.getD_some] at hidm
              rcases List.mem_append.mp hidm with h3 | h3
              · exact (hold ds0 hl).2 id h3
              · exact ⟨ptr, List.mem_cons_self _ _, pkg, hp, (List.mem_singleton.mp h3).symm⟩
        · rw [if_neg hc] at hk
          exact hold ds hk)
      (fun _ _ _ _ _ _ _ _ => trivial)
      pkgs (fun _ _ => trivial)
      (by
        intro P ds hk
        rw [AList.lookup_empty] at hk
        exact Option.noConfusion hk)
  refine ⟨deps, ?_, fun P ds hk => (hinv P ds hk).1⟩
  unfold collectDependants
  rw [hv]
  rfl

/-- C16 at `scenarioGraph`, in which `github.com/x/lib` is reached from both
roots. -/
theorem C16_witness :
    (scenarioGraph.map Package.ID).Nodup ∧
      ∃ deps, collectDependants scenarioGraph [0, 1] = some deps ∧
        ∀ P ds, deps.lookup P = some ds → ds.Nodup :=
  ⟨by decide, C16_collectDependants_nodup scenarioGraph [0, 1] (by decide)⟩

/-! ## The queries of `main` without `-direct` -/

theorem mainArgs_cons (fuel : Nat) (modname : String) (m : DepMap) (arg : String)
    (rest toprint : List String) :
    mainArgs fuel false modname m (arg :: rest) toprint =
      match m.lookup (cleanPkgPath arg modname).1 with
      | none => mainArgs fuel false modname m rest toprint
      | some _ =>
        match dependantsOf fuel (cleanPkgPath arg modname).1 m with
        | none => none
        | some names => mainArgs fuel false modname m rest (names.foldl setAdd toprint) := rfl

theorem lookup_eq_none_of_not_mem_keys (m : DepMap) (k : String) (h : k ∉ m.keys) :
    m.lookup k = none :=
  AList.lookup_eq_none.mpr (fun hk => h (AList.mem_keys.mp hk))

theorem lookup_eq_some_of_mem_keys (m : DepMap) (k : String) (h : k ∈ m.keys) :
    ∃ ds, m.lookup k = some ds :=
  Option.isSome_iff_exists.mp (AList.lookup_isSome.mpr (AList.mem_keys.mpr h))

/-- What the loop over the arguments has printed when it returns. -/
theorem mainArgs_spec (fuel : Nat) (modname : String) (m : DepMap) (args : List String) :
    ∀ toprint out, mainArgs fuel false modname m args toprint = some out →
      (∀ x, x ∈ out ↔ x ∈ toprint ∨ ∃ arg ∈ args, (cleanPkgPath arg modname).1 ∈ m.keys ∧
        ∃ r, dependantsOf fuel (cleanPkgPath arg modname).1 m = some r ∧ x ∈ r) ∧
      ∀ arg ∈ args, (cleanPkgPath arg modname).1 ∈ m.keys →
        ∃ r, dependantsOf fuel (cleanPkgPath arg modname).1 m = some r := by
  induction args with
  | nil =>
    intro toprint out h
    have : toprint = out := by simpa [mainArgs] using h
    subst this
    exact ⟨by simp, by simp⟩
  | cons a t ih =>
    intro toprint out h
    rw [mainArgs_cons] at h
    by_cases hk : (cleanPkgPath a modname).1 ∈ m.keys
    · obtain ⟨ds, hds⟩ := lookup_eq_some_of_mem_keys m _ hk
      rw [hds] at h
      simp only [] at h
      cases hd : dependantsOf fuel (cleanPkgPath a modname).1 m with
      | none =>
        rw [hd] at h
        exact Option.noConfusion h
      | some names =>
        rw [hd] at h
        obtain ⟨h1, h2⟩ := ih _ out h
        refine ⟨?_, ?_⟩
        · intro x
          rw [h1, mem_foldl_setAdd]
          constructor
          · rintro ((hx | hx) | ⟨arg, harg, hkey, r, hr, hxr⟩)
            · exact Or.inl hx
            · exact Or.inr ⟨a, List.mem_cons_self a t, hk, names, hd, hx⟩
            · exact Or.inr ⟨arg, List.mem_cons_of_mem a harg, hkey, r, hr, hxr⟩
          · rintro (hx | ⟨arg, harg, hkey, r, hr, hxr⟩)
            · exact Or.inl (Or.inl hx)
            · rcases List.mem_cons.mp harg with ha | ht
              · subst ha
                rw [hd] at hr
                cases hr
                exact Or.inl (Or.inr hxr)
              · exact Or.inr ⟨arg, ht, hkey, r, hr, hxr⟩
        · intro arg harg hkey
          rcases List.mem_cons.mp harg with ha | ht
          · subst ha
            exact ⟨names, hd⟩
          · exact h2 arg ht hkey
    · rw [lookup_eq_none_of_not_mem_keys m _ hk] at h
      obtain ⟨h1, h2⟩ := ih toprint out h
      refine ⟨?_, ?_⟩
      · intro x
        rw [h1]
        constructor
        · rintro (hx | ⟨arg, harg, hkey, r, hr, hxr⟩)
          · exact Or.inl hx
          · exact Or.inr ⟨arg, List.mem_cons_of_mem a harg, hkey, r, hr, hxr⟩
        · rintro (hx | ⟨arg, harg, hkey, r, hr, hxr⟩)
          · exact Or.inl hx
          · rcases List.mem_cons.mp harg with ha | ht
            · subst ha
              exact absurd hkey hk
            · exact Or.inr ⟨arg, ht, hkey, r, hr, hxr⟩
      · intro arg harg hkey
        rcases List.mem_cons.mp harg with ha | ht
        · subst ha
          exact absurd hkey hk
        · exact h2 arg ht hkey

/-- The loop over the arguments returns when every call of `dependantsOf` it
makes returns. -/
theorem mainArgs_returns (fuel : Nat) (modname : String) (m : DepMap) (args : List String)
    (h : ∀ arg ∈ args, (cleanPkgPath arg modname).1 ∈ m.keys →
      ∃ r, dependantsOf fuel (cleanPkgPath arg modname).1 m = some r) :
    ∀ toprint, ∃ out, mainArgs fuel false modname m args toprint = some out := by
  induction args with
  | nil => exact fun toprint => ⟨toprint, rfl⟩
  | cons a t ih =>
    intro toprint
    rw [mainArgs_cons]
    have iht := ih (fun arg harg => h arg (List.mem_cons_of_mem a harg))
    by_cases hk : (cleanPkgPath a modname).1 ∈ m.keys
    · obtain ⟨ds, hds⟩ := lookup_eq_some_of_mem_keys m _ hk
      obtain ⟨r, hr⟩ := h a (List.mem_cons_self a t) hk
      rw [hds]
      simp only [hr]
      exact iht _
    · rw [lookup_eq_none_of_not_mem_keys m _ hk]
      exact iht toprint

theorem exists_common_fuel_args (modname : String) (m : DepMap) (args : List String)
    (h : ∀ arg ∈ args, (cleanPkgPath arg modname).1 ∈ m.keys →
      ∃ fuel r, dependantsOf fuel (cleanPkgPath arg modname).1 m = some r) :
    ∃ fuel, ∀ arg ∈ args, (cleanPkgPath arg modname).1 ∈ m.keys →
      ∃ r, dependantsOf fuel (cleanPkgPath arg modname).1 m = some r := by
  induction args with
  | nil => exact ⟨0, by simp⟩
  | cons a t ih =>
    obtain ⟨f2, h2⟩ := ih (fun arg harg => h arg (List.mem_cons_of_mem a harg))
    by_cases hk : (cleanPkgPath a modname).1 ∈ m.keys
    · obtain ⟨f1, r1, h1⟩ := h a (List.mem_cons_self a t) hk
      refine ⟨max f1 f2, ?_⟩
      intro arg harg hkey
      rcases List.mem_cons.mp harg with ha | ht
      · subst ha
        exact ⟨r1, dependantsOf_mono m _ r1 f1 _ (le_max_left f1 f2) h1⟩
      · obtain ⟨r, hr⟩ := h2 arg ht hkey
        exact ⟨r, dependantsOf_mono m _ r f2 _ (le_max_right f1 f2) hr⟩
    · refine ⟨f2, ?_⟩
      intro arg harg hkey
      rcases List.mem_cons.mp harg with ha | ht
      · subst ha
        exact absurd hkey hk
      · exact h2 arg ht hkey

theorem mainOutput_of_args (fuel : Nat) (pkgname modname : String) (m : DepMap)
    (args : List String) (hne : args ≠ []) :
    mainOutput fuel false pkgname modname m args = mainArgs fuel false modname m args [] := by
  unfold mainOutput
  rw [if_neg]
  intro h
  exact hne (List.length_eq_zero.mp h)

/-- C13: for a non-empty list of arguments without `-direct`, an argument
whose normalised identifier is not a key of the map contributes nothing and
does not stop the loop: whenever `main` gets to print, the identifiers
printed are exactly those returned by `dependantsOf` for the arguments whose
normalised identifier is a key, wherever the other arguments stand in the
list; `main` gets to print exactly when those calls of `dependantsOf`
return, as they all do on a map whose dependant relation is acyclic. -/
theorem C13_unknown_arguments_skipped (pkgname modname : String) (pkgdeps : DepMap)
    (args : List String) (hne : args ≠ []) :
    (∀ fuel out, mainOutput fuel false pkgname modname pkgdeps args = some out →
      ∀ x, x ∈ out ↔ ∃ arg ∈ args, (cleanPkgPath arg modname).1 ∈ pkgdeps.keys ∧
        ∃ r, dependantsOf fuel (cleanPkgPath arg modname).1 pkgdeps = some r ∧ x ∈ r) ∧
    ((∃ fuel out, mainOutput fuel false pkgname modname pkgdeps args = some out) ↔
      ∀ arg ∈ args, (cleanPkgPath arg modname).1 ∈ pkgdeps.keys →
        ∃ fuel r, dependantsOf fuel (cleanPkgPath arg modname).1 pkgdeps = some r) ∧
    (Acyclic pkgdeps →
      ∃ fuel out, mainOutput fuel false pkgname modname pkgdeps args = some out) := by
  have hret : (∀ arg ∈ args, (cleanPkgPath arg modname).1 ∈ pkgdeps.keys →
      ∃ fuel r, dependantsOf fuel (cleanPkgPath arg modname).1 pkgdeps = some r) →
      ∃ fuel out, mainOutput fuel false pkgname modname pkgdeps args = some out := by
    intro h
    obtain ⟨fuel, hf⟩ := exists_common_fuel_args modname pkgdeps args h
    obtain ⟨out, hout⟩ := mainArgs_returns fuel modname pkgdeps args hf []
    exact ⟨fuel, out, by rw [mainOutput_of_args fuel pkgname modname pkgdeps args hne, hout]⟩
  refine ⟨?_, ⟨?_, hret⟩, ?_⟩
  · intro fuel out h x
    rw [mainOutput_of_args fuel pkgname modname pkgdeps args hne] at h
    rw [(mainArgs_spec fuel modname pkgdeps args [] out h).1 x]
    simp only [List.not_mem_nil, false_or]
  · rintro ⟨fuel, out, h⟩ arg harg hkey
    rw [mainOutput_of_args fuel pkgname modname pkgdeps args hne] at h
    obtain ⟨r, hr⟩ := (mainArgs_spec fuel modname pkgdeps args [] out h).2 arg harg hkey
    exact ⟨fuel, r, hr⟩
  · intro hac
    refine hret (fun arg _ _ => ?_)
    obtain ⟨fuel, r, hr, _⟩ :=
      dependantsOf_of_acc pkgdeps (cleanPkgPath arg modname).1 (acc_of_acyclic pkgdeps hac _)
    exact ⟨fuel, r, hr⟩

/-- C13 at the filtered map of `chainGraph` with the arguments `queryArgs`,
two of which are no keys of the map. -/
theorem C13_witness :
    queryArgs ≠ [] ∧
    (∀ fuel out, mainOutput fuel false "example.com/app/a" "example.com/app"
        (trimExtModDeps "example.com/app" chainMap) queryArgs = some out →
      ∀ x, x ∈ out ↔ ∃ arg ∈ queryArgs,
        (cleanPkgPath arg "example.com/app").1 ∈
          (trimExtModDeps "example.com/app" chainMap).keys ∧
        ∃ r, dependantsOf fuel (cleanPkgPath arg "example.com/app").1
          (trimExtModDeps "example.com/app" chainMap) = some r ∧ x ∈ r) ∧
    ((∃ fuel out, mainOutput fuel false "example.com/app/a" "example.com/app"
        (trimExtModDeps "example.com/app" chainMap) queryArgs = some out) ↔
      ∀ arg ∈ queryArgs,
        (cleanPkgPath arg "example.com/app").1 ∈
          (trimExtModDeps "example.com/app" chainMap).keys →
        ∃ fuel r, dependantsOf fuel (cleanPkgPath arg "example.com/app").1
          (trimExtModDeps "example.com/app" chainMap) = some r) ∧
    (Acyclic (trimExtModDeps "example.com/app" chainMap) →
      ∃ fuel out, mainOutput fuel false "example.com/app/a" "example.com/app"
        (trimExtModDeps "example.com/app" chainMap) queryArgs = some out) :=
  ⟨by decide,
    C13_unknown_arguments_skipped "example.com/app/a" "example.com/app"
      (trimExtModDeps "example.com/app" chainMap) queryArgs (by decide)⟩

end GoDependants
